import Mathlib

/-! Quiz generator: text segmentation, fallback questions and the delimiter contract.

A shallow embedding of `backend/controllers/course.controller.js`.

JavaScript strings are sequences of UTF-16 code units, and `.length`, `trim`,
`split`, `includes`, `replace` and the regular expressions used by the
controller (none carries the `u` flag) all work on code units.  A string is
therefore modelled as a list of code units, each a natural number.
-/

namespace QuizApp

/-- A JavaScript string: the list of its UTF-16 code units. -/
abbrev JSString := List Nat

/-- The code units of a literal whose characters all lie in the Basic
Multilingual Plane (one code unit per character). -/
def ofString (s : String) : JSString := s.toList.map Char.toNat

/-! ## Character classes -/

/-- The characters of the class `[.!?]`: `.` (46), `!` (33), `?` (63). -/
def isTerminator (c : Nat) : Bool := c == 46 || c == 33 || c == 63

/-- The characters matched by `\s`, which are also the ones removed by
`String.prototype.trim` (WhiteSpace and LineTerminator of ECMAScript):
TAB, LF, VT, FF, CR, SPACE, NBSP, U+1680, U+2000..U+200A, LS, PS, U+202F,
U+205F, U+3000 and U+FEFF. -/
def isWhiteSpace (c : Nat) : Bool :=
  (9 ≤ c && c ≤ 13) || c == 32 || c == 160 || c == 5760 || (8192 ≤ c && c ≤ 8202) ||
    c == 8232 || c == 8233 || c == 8239 || c == 8287 || c == 12288 || c == 65279

/-- The characters of the class `[\r\n]`. -/
def isLineBreak (c : Nat) : Bool := c == 13 || c == 10

/-! ## String primitives -/

/-- `String.prototype.trim`: white space removed from both ends. -/
def trim (s : JSString) : JSString := (s.dropWhile isWhiteSpace).rdropWhile isWhiteSpace

/-- `s.replace(/[p]+/g, ' ')`: every maximal run of characters of the class `p`
is replaced by one space.  `inRun` records that the previous character
belonged to the run whose space has already been emitted. -/
def replaceRunsAux (p : Nat → Bool) : Bool → JSString → JSString
  | _, [] => []
  | inRun, c :: cs =>
    if p c then
      if inRun then replaceRunsAux p true cs else 32 :: replaceRunsAux p true cs
    else c :: replaceRunsAux p false cs

/-- `s.replace(/[p]+/g, ' ')`. -/
def replaceRuns (p : Nat → Bool) (s : JSString) : JSString := replaceRunsAux p false s

/-- `prepareText` (lines 97-102): collapse white space, then line breaks, then trim. -/
def prepareText (text : JSString) : JSString :=
  trim (replaceRuns isLineBreak (replaceRuns isWhiteSpace text))

/-- `Array.prototype.join`: the elements separated by `sep`. -/
def arrayJoin (sep : JSString) : List JSString → JSString
  | [] => []
  | [x] => x
  | x :: y :: rest => x ++ sep ++ arrayJoin sep (y :: rest)

/-- `s.includes(pat)`: `pat` occurs in `s` as a contiguous substring. -/
def includes : JSString → JSString → Bool
  | [], pat => pat.isEmpty
  | c :: cs, pat => pat.isPrefixOf (c :: cs) || includes cs pat

/-- The worker of `split`: `skip` counts the characters of a matched
separator that are still to be passed over, `cur` is the segment being read. -/
def splitAux (sep : JSString) : Nat → JSString → JSString → List JSString
  | _, cur, [] => [cur]
  | skip + 1, cur, _ :: cs => splitAux sep skip cur cs
  | 0, cur, c :: cs =>
    if sep.isPrefixOf (c :: cs) then cur :: splitAux sep (sep.length - 1) [] cs
    else splitAux sep 0 (cur ++ [c]) cs

/-- `s.split(sep)` for a non-empty string separator: the segments between the
occurrences of `sep`, found from left to right without overlap. -/
def split (s sep : JSString) : List JSString := splitAux sep 0 [] s

/-- `s.replace(pat, rep)` with a string pattern: only the first occurrence of
`pat` is replaced (`rep` holds no `$` pattern in this program). -/
def replaceFirst (pat rep : JSString) : JSString → JSString
  | [] => if pat = [] then rep else []
  | c :: cs =>
    if pat.isPrefixOf (c :: cs) then rep ++ (c :: cs).drop pat.length
    else c :: replaceFirst pat rep cs

/-- `x || fallback` for a value that is a string or `undefined`: the empty
string is falsy like `undefined`. -/
def orDefault (x : Option JSString) (fallback : JSString) : JSString :=
  match x with
  | some (c :: cs) => c :: cs
  | _ => fallback

/-! ## Sentence matching and chunking -/

/-- The scanner behind `text.match(/[^.!?]+[.!?]+/g)`.  `body` is the run of
non-terminators of the match being attempted (`[^.!?]+`, greedy) and `terms`
the terminators consumed after it (`[.!?]+`, greedy).  A terminator met while
`body` is empty cannot start a match and is skipped; a non-terminator met
after at least one terminator ends the current match and starts the next one;
at the end of the input an attempt without terminator fails (and so does every
later start inside it), so the unterminated tail yields no match. -/
def matchSentencesFrom : JSString → JSString → JSString → List JSString
  | [], body, terms => if terms = [] then [] else [body ++ terms]
  | c :: cs, body, terms =>
    if isTerminator c then
      if body = [] then matchSentencesFrom cs [] []
      else matchSentencesFrom cs body (terms ++ [c])
    else
      if terms = [] then matchSentencesFrom cs (body ++ [c]) []
      else (body ++ terms) :: matchSentencesFrom cs [c] []

/-- `text.match(/[^.!?]+[.!?]+/g) || []`: the matched sentences, in order. -/
def matchSentences (text : JSString) : List JSString := matchSentencesFrom text [] []

/-- The state of the loop of `chunkText`: the chunks pushed so far and the
running chunk. -/
structure ChunkState where
  chunks : List JSString
  currentChunk : JSString
  deriving DecidableEq, Repr

/-- `if (currentChunk) chunks.push(currentChunk.trim())`. -/
def pushCurrent (chunks : List JSString) (currentChunk : JSString) : List JSString :=
  if currentChunk = [] then chunks else chunks ++ [trim currentChunk]

/-- One iteration of the `for (const sentence of sentences)` loop (lines 84-91). -/
def chunkStep (maxLength : Nat) (st : ChunkState) (sentence : JSString) : ChunkState :=
  if (st.currentChunk ++ sentence).length ≤ maxLength then
    { chunks := st.chunks, currentChunk := st.currentChunk ++ sentence }
  else
    { chunks := pushCurrent st.chunks st.currentChunk, currentChunk := sentence }

/-- The loop of `chunkText` over a list of sentences, from a given state, with
the final push of line 92. -/
def chunkSentences (maxLength : Nat) (sentences : List JSString) (st : ChunkState) :
    List JSString :=
  let final := sentences.foldl (chunkStep maxLength) st
  pushCurrent final.chunks final.currentChunk

/-- `chunkText(text, maxLength)` (lines 79-94). -/
def chunkText (text : JSString) (maxLength : Nat) : List JSString :=
  chunkSentences maxLength (matchSentences text) { chunks := [], currentChunk := [] }

/-- The default value of `maxLength`. -/
def defaultMaxLength : Nat := 250

/-! ## Key terms -/

/-- The characters of the class `\w`: `[A-Za-z0-9_]`. -/
def isWordChar (c : Nat) : Bool :=
  (65 ≤ c && c ≤ 90) || (97 ≤ c && c ≤ 122) || (48 ≤ c && c ≤ 57) || c == 95

/-- The worker of `s.split(/[p]+/)`: at the first character of a run of the
class `p` the segment read so far is emitted, the rest of the run is skipped. -/
def splitRunsAux (p : Nat → Bool) : Bool → JSString → JSString → List JSString
  | _, cur, [] => [cur]
  | inRun, cur, c :: cs =>
    if p c then
      if inRun then splitRunsAux p true [] cs else cur :: splitRunsAux p true [] cs
    else splitRunsAux p false (cur ++ [c]) cs

/-- `s.split(/\W+/)`: the segments between the maximal runs of non-word
characters (an empty first or last segment when `s` starts or ends with one). -/
def splitNonWord (s : JSString) : List JSString :=
  splitRunsAux (fun c => !isWordChar c) false [] s

/-- The array `commonWords` of `extractKeyTerms`. -/
def commonWords : List JSString :=
  [ofString "the", ofString "a", ofString "an", ofString "and", ofString "or", ofString "but",
   ofString "in", ofString "on", ofString "at", ofString "to", ofString "for", ofString "of",
   ofString "with", ofString "by"]

/-- `extractKeyTerms(text)` (lines 105-112).  `toLowerCase` is the host's
`String.prototype.toLowerCase` (the Unicode lower-case mapping). -/
def extractKeyTerms (toLowerCase : JSString → JSString) (text : JSString) : List JSString :=
  let words := splitNonWord (toLowerCase text)
  (words.filter (fun word => decide (word.length > 3) && !commonWords.contains word)).take 5

/-- What `toLowerCase` does to a code unit of an ASCII string. -/
def asciiLowerUnit (c : Nat) : Nat := if 65 ≤ c ∧ c ≤ 90 then c + 32 else c

/-- The lower-case mapping on ASCII strings: `toLowerCase` agrees with it on
every string whose code units are all below 128. -/
def asciiLower (s : JSString) : JSString := s.map asciiLowerUnit

/-! ## Language tables -/

/-- The errors thrown in the generation code. -/
inductive JSError where
  /-- A property read on `undefined` (`TypeError`). -/
  | typeError
  /-- `new Error("No response from model")`. -/
  | noResponse
  /-- `new Error("Invalid question format")`. -/
  | invalidFormat
  /-- The call to the model rejected. -/
  | modelError
  deriving DecidableEq, Repr

/-- The own keys of the per-language object literals. -/
inductive Lang where
  | en
  | es
  | fr
  deriving DecidableEq, Repr

/-- The property names every object literal inherits from `Object.prototype`. -/
def objectPrototypeKeys : List JSString :=
  [ofString "constructor", ofString "__proto__", ofString "hasOwnProperty",
   ofString "isPrototypeOf", ofString "propertyIsEnumerable", ofString "toLocaleString",
   ofString "toString", ofString "valueOf", ofString "__defineGetter__",
   ofString "__defineSetter__", ofString "__lookupGetter__", ofString "__lookupSetter__"]

/-- `table[language] || table['en']` on an object literal with the keys `en`,
`es`, `fr`: the entry of the language, the entry of `en` when the property is
absent, and `none` when the name is inherited from `Object.prototype` (the
value is then a truthy function or object that is no table, and reading a
member of one of its undefined properties throws a `TypeError`). -/
def lookupLanguage (language : JSString) : Option Lang :=
  if language = ofString "en" then some Lang.en
  else if language = ofString "es" then some Lang.es
  else if language = ofString "fr" then some Lang.fr
  else if language ∈ objectPrototypeKeys then none
  else some Lang.en

/-! ## The fallback generator -/

/-- The delimiter token. -/
def DELIM : JSString := ofString "<$$$>"

/-- The answer marker. -/
def ANSWER : JSString := ofString "$ANSWER$"

/-- The object returned by `generateFallbackQuestion`. -/
structure FallbackQuestion where
  question : JSString
  options : List JSString
  answer : Option JSString
  deriving DecidableEq, Repr

/-- The inner function `generateOptions(mainTopic, terms)` (lines 18-35). -/
def generateOptions (mainTopic : JSString) (terms : List JSString) : List JSString :=
  match terms with
  | t0 :: t1 :: t2 :: _ =>
    [mainTopic,
     ofString "The relationship between " ++ t0 ++ ofString " and " ++ t1,
     ofString "The impact of " ++ t2 ++ ofString " on " ++ t0,
     ofString "The development of " ++ t1 ++ ofString " through " ++ t2]
  | _ =>
    [mainTopic,
     ofString "A different aspect of " ++ mainTopic,
     ofString "Historical development of " ++ mainTopic,
     ofString "Future implications of " ++ mainTopic]

/-- The `questions` arrays of the table `templates` (lines 41-66); `term0` is
`keyTerms[0]`. -/
def fallbackQuestions (term0 : Option JSString) : Lang → List JSString
  | Lang.en =>
    [ofString "What is the primary focus of the text regarding " ++
       orDefault term0 (ofString "this topic") ++ ofString "?",
     ofString "Which aspect of " ++ orDefault term0 (ofString "the subject") ++
       ofString " does the text mainly discuss?",
     ofString "What is the main argument presented about " ++
       orDefault term0 (ofString "this topic") ++ ofString "?"]
  | Lang.es =>
    [ofString "¿Cuál es el enfoque principal del texto sobre " ++
       orDefault term0 (ofString "este tema") ++ ofString "?",
     ofString "¿Qué aspecto de " ++ orDefault term0 (ofString "el tema") ++
       ofString " discute principalmente el texto?",
     ofString "¿Cuál es el argumento principal presentado sobre " ++
       orDefault term0 (ofString "este tema") ++ ofString "?"]
  | Lang.fr =>
    [ofString "Quel est le point principal du texte concernant " ++
       orDefault term0 (ofString "ce sujet") ++ ofString "?",
     ofString "Quel aspect de " ++ orDefault term0 (ofString "le sujet") ++
       ofString " le texte discute-t-il principalement?",
     ofString "Quel est l'argument principal présenté sur " ++
       orDefault term0 (ofString "ce sujet") ++ ofString "?"]

/-- `generateFallbackQuestion(text, language)` (lines 13-76).  `pick` is the
source of `Math.random()`: `Math.floor(Math.random() * n)` is `pick % n`, any
index below `n`.  The result is `typeError` when `templates[language]` is an
inherited member, whose `questions` is `undefined`. -/
def generateFallbackQuestion (toLowerCase : JSString → JSString) (text language : JSString)
    (pick : Nat) : Except JSError FallbackQuestion :=
  let cleanText := prepareText text
  let keyTerms := extractKeyTerms toLowerCase cleanText
  let mainTopic := trim ((split text (ofString ".")).headD [])
  let options := generateOptions mainTopic keyTerms
  match lookupLanguage language with
  | none => Except.error JSError.typeError
  | some lang =>
    let questions := fallbackQuestions keyTerms.head? lang
    let randomQuestion := questions.getD (pick % questions.length) []
    Except.ok { question := randomQuestion, options := options, answer := options.head? }

/-! ## The prompt -/

/-- An entry of the table `questionTypes`. -/
structure QuestionType where
  template : JSString
  context : JSString
  deriving DecidableEq, Repr

/-- The table `questionTypes` of `getPrompt` (lines 119-158). -/
def questionTypes (keyTerms : List JSString) : Lang → List QuestionType
  | Lang.en =>
    [{ template := ofString "Based on the text, what is the main purpose of",
       context := ofString "Consider the relationship between " ++
         arrayJoin (ofString " and ") (keyTerms.take 2) },
     { template := ofString "Which of the following best explains how",
       context := ofString "Focus on the key concepts: " ++ arrayJoin (ofString ", ") keyTerms },
     { template := ofString "What is the primary relationship between",
       context := ofString "Analyze the connection between different elements" },
     { template := ofString "How does the text characterize",
       context := ofString "Consider the description and analysis provided" }]
  | Lang.es =>
    [{ template := ofString "Según el texto, ¿cuál es el propósito principal de",
       context := ofString "Considera la relación entre " ++
         arrayJoin (ofString " y ") (keyTerms.take 2) },
     { template := ofString "¿Cuál de las siguientes opciones explica mejor cómo",
       context := ofString "Enfócate en los conceptos clave: " ++
         arrayJoin (ofString ", ") keyTerms }]
  | Lang.fr =>
    [{ template := ofString "D'après le texte, quel est l'objectif principal de",
       context := ofString "Considérez la relation entre " ++
         arrayJoin (ofString " et ") (keyTerms.take 2) },
     { template := ofString "Laquelle des options suivantes explique le mieux comment",
       context := ofString "Concentrez-vous sur les concepts clés: " ++
         arrayJoin (ofString ", ") keyTerms }]

/-- The table `basePrompt` of `getPrompt` (lines 163-200). -/
def basePrompt (cleanText : JSString) (selectedTemplate : QuestionType) : Lang → JSString
  | Lang.en =>
    ofString "Generate a multiple choice question about this text.\n\nText: \"" ++ cleanText ++
    ofString "\"\n\nCONTEXT: " ++ selectedTemplate.context ++
    ofString "\nQUESTION TYPE: " ++ selectedTemplate.template ++
    ofString "\n\nIMPORTANT: Follow this EXACT format:\n[Your complete question]<$$$>[First option - most relevant]<$$$>[Second option - partially relevant]<$$$>[Third option - related but incorrect]<$$$>[Fourth option - clearly incorrect]<$$$>$ANSWER$[Correct option]\n\nRequirements:\n1. Question should be specific and based on the text content\n2. Options must be distinct and realistic\n3. Make options similar in length and style\n4. Correct answer must be clearly supported by the text\n5. Avoid obvious incorrect options"
  | Lang.es =>
    ofString "Genera una pregunta de opción múltiple sobre este texto.\n\nTexto: \"" ++ cleanText ++
    ofString "\"\n\nCONTEXTO: " ++ selectedTemplate.context ++
    ofString "\nTIPO DE PREGUNTA: " ++ selectedTemplate.template ++
    ofString "\n\nIMPORTANTE: Sigue este formato EXACTO:\n[Tu pregunta completa]<$$$>[Primera opción - más relevante]<$$$>[Segunda opción - parcialmente relevante]<$$$>[Tercera opción - relacionada pero incorrecta]<$$$>[Cuarta opción - claramente incorrecta]<$$$>$ANSWER$[Opción correcta]"
  | Lang.fr =>
    ofString "Créez une question à choix multiples à partir de ce texte.\n\nTexte: \"" ++ cleanText ++
    ofString "\"\n\nCONTEXTE: " ++ selectedTemplate.context ++
    ofString "\nTYPE DE QUESTION: " ++ selectedTemplate.template ++
    ofString "\n\nIMPORTANT: Suivez ce format EXACT:\n[Votre question complète]<$$$>[Première option - plus pertinente]<$$$>[Deuxième option - partiellement pertinente]<$$$>[Troisième option - liée mais incorrecte]<$$$>[Quatrième option - clairement incorrecte]<$$$>$ANSWER$[Option correcte]"

/-- `getPrompt(text, language)` (lines 115-203).  `pick` is the source of
`Math.random()`.  When `questionTypes[language]` is an inherited member,
`selectedTemplate` is `undefined` and reading its `context` throws. -/
def getPrompt (toLowerCase : JSString → JSString) (text language : JSString) (pick : Nat) :
    Except JSError JSString :=
  let cleanText := prepareText text
  let keyTerms := extractKeyTerms toLowerCase cleanText
  match lookupLanguage language with
  | none => Except.error JSError.typeError
  | some lang =>
    let templates := questionTypes keyTerms lang
    match templates.get? (pick % templates.length) with
    | none => Except.error JSError.typeError
    | some selectedTemplate => Except.ok (basePrompt cleanText selectedTemplate lang)

/-! ## The generation loop -/

/-- What the awaited call `hf.textGeneration(...)` does: it resolves to a
response with a string `generated_text`, resolves to no usable response
(`null`, or a missing text), or rejects. -/
inductive ModelOutcome where
  | generated (generated_text : JSString)
  | noResponse
  | rejected
  deriving DecidableEq, Repr

/-- The format check of lines 302-315 on the trimmed generated text: the
text to push, or the error thrown. -/
def validateFormat (generatedText : JSString) : Except JSError JSString :=
  if includes generatedText DELIM && includes generatedText ANSWER then
    let parts := split generatedText DELIM
    if parts.length ≥ 6 then Except.ok generatedText
    else Except.error JSError.invalidFormat
  else Except.error JSError.invalidFormat

/-- The inner `try` block after the call to the model (lines 293-315). -/
def checkResponse : ModelOutcome → Except JSError JSString
  | ModelOutcome.rejected => Except.error JSError.modelError
  | ModelOutcome.noResponse => Except.error JSError.noResponse
  | ModelOutcome.generated generated_text =>
    if generated_text = [] then Except.error JSError.noResponse
    else validateFormat (trim generated_text)

/-- The string `formattedFallback` of line 320 (a missing answer would be
rendered as `undefined`). -/
def formatFallback (fallbackQuestion : FallbackQuestion) : JSString :=
  fallbackQuestion.question ++ DELIM ++ arrayJoin DELIM fallbackQuestion.options ++ DELIM ++
    ANSWER ++ fallbackQuestion.answer.getD (ofString "undefined")

/-- What the request's collaborators do at chunk `i`: the lower-case mapping
of the host, the two random choices and the outcome of the call to the model
for the prompt it is sent. -/
structure Host where
  toLowerCase : JSString → JSString
  promptPick : Nat → Nat
  fallbackPick : Nat → Nat
  model : Nat → JSString → ModelOutcome

/-- What the body of the outer `try` pushes onto `questions`. -/
inductive Produced where
  /-- Line 305: the validated text of the model; `retryCount` is reset. -/
  | generated (text : JSString)
  /-- Line 321: the encoded fallback question. -/
  | fallback (text : JSString)
  deriving DecidableEq, Repr

/-- The body of the outer `try` for chunk `i` (lines 275-323): what is
pushed, or the error that escapes to the outer `catch`. -/
def processChunk (h : Host) (chunk language : JSString) (i : Nat) : Except JSError Produced :=
  match getPrompt h.toLowerCase chunk language (h.promptPick i) with
  | Except.error e => Except.error e
  | Except.ok prompt =>
    match checkResponse (h.model i prompt) with
    | Except.ok generatedText => Except.ok (Produced.generated generatedText)
    | Except.error _ =>
      match generateFallbackQuestion h.toLowerCase chunk language (h.fallbackPick i) with
      | Except.error e => Except.error e
      | Except.ok fallbackQuestion => Except.ok (Produced.fallback (formatFallback fallbackQuestion))

/-- The variables of the generation loop. -/
structure LoopState where
  i : Nat
  questions : List JSString
  retryCount : Nat
  deriving DecidableEq, Repr

/-- The constant `maxRetries`. -/
def maxRetries : Nat := 3

/-- The loop condition of line 273. -/
def loopCond (chunks : List JSString) (count : Nat) (st : LoopState) : Bool :=
  decide (st.i < chunks.length) && decide (st.questions.length < count)

/-- One iteration of the loop of lines 273-333, the update `i++` included. -/
def loopBody (h : Host) (chunks : List JSString) (language : JSString) (st : LoopState) :
    LoopState :=
  match processChunk h (chunks.getD st.i []) language st.i with
  | Except.ok (Produced.generated text) =>
    { i := st.i + 1, questions := st.questions ++ [text], retryCount := 0 }
  | Except.ok (Produced.fallback text) =>
    { i := st.i + 1, questions := st.questions ++ [text], retryCount := st.retryCount }
  | Except.error _ =>
    if st.retryCount + 1 ≥ maxRetries then
      { i := st.i + 1 + 1, questions := st.questions, retryCount := 0 }
    else
      { i := st.i + 1, questions := st.questions, retryCount := st.retryCount + 1 }

/-- At most `fuel` iterations of the loop from state `st`. -/
def runLoop (h : Host) (chunks : List JSString) (language : JSString) (count : Nat) :
    Nat → LoopState → LoopState
  | 0, st => st
  | fuel + 1, st =>
    if loopCond chunks count st then runLoop h chunks language count fuel (loopBody h chunks language st)
    else st

/-- The state in which the loop starts. -/
def initialState : LoopState := { i := 0, questions := [], retryCount := 0 }

/-- The generation loop of `makeProAction`: `chunks.length` iterations are
enough for it to stop. -/
def generationLoop (h : Host) (chunks : List JSString) (language : JSString) (count : Nat) :
    LoopState :=
  runLoop h chunks language count chunks.length initialState

/-! ## Persistence -/

/-- The document handed to `new Course(...)` (lines 340-347). -/
structure CourseData where
  problem : JSString
  items : List JSString
  answer : JSString
  type : JSString
  language : JSString
  user_id : JSString
  deriving DecidableEq, Repr

/-- The decoding of one accumulated string (lines 338-347): nothing is saved
when it has fewer than six segments. -/
def decodeQuestion (type language user_id questionText : JSString) : Option CourseData :=
  let proList := split questionText DELIM
  if proList.length ≥ 6 then
    some { problem := proList.getD 0 [],
           items := (proList.drop 1).take 4,
           answer := replaceFirst ANSWER [] (proList.getD 5 []),
           type := type, language := language, user_id := user_id }
  else none

/-- The `required` validators of the schema (`course.model.js`, lines 5-28),
which `save()` runs: a string field passes when it is not empty.  (`items`
holds four elements after decoding, so its validator passes.) -/
def passesValidation (d : CourseData) : Bool :=
  !d.problem.isEmpty && !d.answer.isEmpty && !d.type.isEmpty && !d.language.isEmpty &&
    !d.user_id.isEmpty

/-- How the persistence loop of lines 336-351 ends. -/
inductive SaveOutcome where
  /-- Every `save()` resolved: `saved` are the documents stored, in order, and
  the response of line 356 reports `savedCount`, their number. -/
  | responded (saved : List CourseData)
  /-- A `save()` rejected with a validation error: the documents `saved`
  before it stay stored, the error is rethrown (line 366) and no response is
  sent. -/
  | threw (saved : List CourseData)
  deriving DecidableEq, Repr

/-- The loop of lines 337-351: a string with fewer than six segments is
passed over, a decoded document is saved when it passes the validators of the
schema, and the first document that fails them ends the loop with the error
of `save()`. -/
def saveQuestions (type language user_id : JSString) : List JSString → SaveOutcome
  | [] => SaveOutcome.responded []
  | questionText :: rest =>
    match decodeQuestion type language user_id questionText with
    | none => saveQuestions type language user_id rest
    | some courseData =>
      if passesValidation courseData then
        match saveQuestions type language user_id rest with
        | SaveOutcome.responded saved => SaveOutcome.responded (courseData :: saved)
        | SaveOutcome.threw saved => SaveOutcome.threw (courseData :: saved)
      else SaveOutcome.threw []

/-- The value reported as `questionsGenerated` (line 359): `savedCount` when
the response is sent, nothing when a `save()` has thrown. -/
def questionsGenerated : SaveOutcome → Option Nat
  | SaveOutcome.responded saved => some saved.length
  | SaveOutcome.threw _ => none

/-- The part of `makeProAction` that follows text extraction and language
detection (lines 266-360): chunk the text with the default `maxLength`, run
the generation loop, decode and save the accumulated strings. -/
def generateAndSave (h : Host) (textContent type language user_id : JSString) (count : Nat) :
    SaveOutcome :=
  let chunks := chunkText textContent defaultMaxLength
  let questions := (generationLoop h chunks language count).questions
  saveQuestions type language user_id questions

/-! ## Predicates used in the statements -/

/-- A string of the shape matched by `[^.!?]+[.!?]+`: one or more
non-terminators followed by one or more terminators. -/
def IsSentence (s : JSString) : Prop :=
  ∃ body terms, s = body ++ terms ∧ body ≠ [] ∧ (∀ c ∈ body, isTerminator c = false) ∧
    terms ≠ [] ∧ (∀ c ∈ terms, isTerminator c = true)

/-- The string with every white-space character deleted. -/
def stripWhiteSpace (s : JSString) : JSString := s.filter (fun c => !isWhiteSpace c)

/-- The text the prompt asks the model for: the question, the four options
and the marked answer, separated by the delimiter. -/
def encodeQuestion (q o1 o2 o3 o4 a : JSString) : JSString :=
  q ++ DELIM ++ o1 ++ DELIM ++ o2 ++ DELIM ++ o3 ++ DELIM ++ o4 ++ DELIM ++ ANSWER ++ a

/-- The three conditions of the format check on a generated text. -/
def WellFormatted (generatedText : JSString) : Prop :=
  includes generatedText DELIM = true ∧ includes generatedText ANSWER = true ∧
    6 ≤ (split generatedText DELIM).length

/-- The chunk made of a group of sentences: their concatenation, trimmed. -/
def chunkOfGroup (group : List JSString) : JSString := trim group.flatten

/-- A group of sentences that `chunkText` can close: its concatenation fits in
`maxLength`, or it is a single sentence longer than `maxLength`. -/
def GroupFits (maxLength : Nat) (group : List JSString) : Prop :=
  group.flatten.length ≤ maxLength ∨ ∃ s, group = [s] ∧ maxLength < s.length

/-- The invariant of the loop: no more questions than asked for, than chunks,
or than chunks passed over. -/
def LoopInvariant (chunks : List JSString) (count : Nat) (st : LoopState) : Prop :=
  st.questions.length ≤ min count chunks.length ∧ st.questions.length ≤ st.i

/-! ## Notions used in the later statements -/

/-- The tokens of a string in the words of the spec: its maximal runs of word
characters, in order (the pieces between non-word characters, the empty ones
left out). -/
def wordTokens (s : JSString) : List JSString :=
  (s.splitOnP (fun c => !isWordChar c)).filter (fun w => !w.isEmpty)

/-- The test of the filter of `extractKeyTerms`: longer than 3 and not a
common word. -/
def qualifies (word : JSString) : Bool :=
  decide (word.length > 3) && !commonWords.contains word

/-- What `toLowerCase` does to a code unit of a string made of ASCII
characters and of KELVIN SIGN (U+212A, 8490), whose lower case is `k` (107). -/
def kelvinLowerUnit (c : Nat) : Nat := if c = 8490 then 107 else asciiLowerUnit c

/-- The lower-case mapping on strings made of ASCII characters and KELVIN
SIGN: `toLowerCase` agrees with it on every such string. -/
def kelvinLower (s : JSString) : JSString := s.map kelvinLowerUnit

/-- A string whose only white space is single spaces: no white-space
character other than the space (so no newline and no tab) and no two
consecutive white-space characters. -/
def SingleSpaced (s : JSString) : Prop :=
  (∀ c ∈ s, isWhiteSpace c = true → c = 32) ∧
    s.Chain' (fun a b => ¬ (isWhiteSpace a = true ∧ isWhiteSpace b = true))

/-- The group `g` was closed and the next chunk started with the group `g2`:
the text accumulated in `g` and the first sentence of `g2` together exceed
`maxLength`. -/
def ClosedBefore (maxLength : Nat) (g g2 : List JSString) : Prop :=
  ∃ s rest, g2 = s :: rest ∧ maxLength < g.flatten.length + s.length

/-- The string pushed for chunk `i` when the fallback is used: the encoding
of `generateFallbackQuestion(chunks[i], language)`. -/
def encodedFallback (h : Host) (chunks : List JSString) (language : JSString) (i : Nat) :
    Option JSString :=
  match generateFallbackQuestion h.toLowerCase (chunks.getD i []) language (h.fallbackPick i) with
  | Except.ok fallbackQuestion => some (formatFallback fallbackQuestion)
  | Except.error _ => none

/-- A host whose model rejects every call. -/
def failingHost : Host :=
  { toLowerCase := asciiLower, promptPick := fun _ => 0, fallbackPick := fun _ => 0,
    model := fun _ _ => ModelOutcome.rejected }

/-- The chunk indices at which the body of the loop runs, in order, in at
most `fuel` iterations from `st`. -/
def visitedIndices (h : Host) (chunks : List JSString) (language : JSString) (count : Nat) :
    Nat → LoopState → List Nat
  | 0, _ => []
  | fuel + 1, st =>
    if loopCond chunks count st then
      st.i :: visitedIndices h chunks language count fuel (loopBody h chunks language st)
    else []

/-- The iteration for chunk `i` reaches the call to the model (line 278)
exactly when `getPrompt` has returned a prompt. -/
def callsModel (h : Host) (chunks : List JSString) (language : JSString) (i : Nat) : Bool :=
  match getPrompt h.toLowerCase (chunks.getD i []) language (h.promptPick i) with
  | Except.ok _ => true
  | Except.error _ => false

/-- The chunk indices for which the model is called, one entry per call. -/
def modelCallIndices (h : Host) (chunks : List JSString) (language : JSString) (count : Nat)
    (fuel : Nat) (st : LoopState) : List Nat :=
  (visitedIndices h chunks language count fuel st).filter (callsModel h chunks language)

/-- A host whose model answers every call with the same text. -/
def answeringHost (generated_text : JSString) : Host :=
  { toLowerCase := asciiLower, promptPick := fun _ => 0, fallbackPick := fun _ => 0,
    model := fun _ _ => ModelOutcome.generated generated_text }

/-- The host `h` with another model. -/
def withModel (h : Host) (model : Nat → JSString → ModelOutcome) : Host :=
  { toLowerCase := h.toLowerCase, promptPick := h.promptPick, fallbackPick := h.fallbackPick,
    model := model }

/-! ## Lemmas on the string primitives -/

theorem length_dropWhile_le_self (p : Nat → Bool) (s : JSString) :
    (s.dropWhile p).length ≤ s.length :=
  (List.dropWhile_suffix p).length_le

theorem length_rdropWhile_le_self (p : Nat → Bool) (s : JSString) :
    (s.rdropWhile p).length ≤ s.length :=
  ( List.rdropWhile_prefix p s).length_le

theorem trim_length_le (s : JSString) : (trim s).length ≤ s.length :=
  le_trans (length_rdropWhile_le_self _ _) (length_dropWhile_le_self _ _)

theorem filter_dropWhile_not (p : Nat → Bool) (s : JSString) :
    (s.dropWhile p).filter (fun c => !p c) = s.filter (fun c => !p c) := by
  induction s with
  | nil => rfl
  | cons c cs ih =>
    by_cases hc : p c = true
    · simp [List.dropWhile_cons, hc, ih]
    · simp [List.dropWhile_cons, hc]

theorem filter_rdropWhile_not (p : Nat → Bool) (s : JSString) :
    (s.rdropWhile p).filter (fun c => !p c) = s.filter (fun c => !p c) := by
  unfold List.rdropWhile
  rw [List.filter_reverse, filter_dropWhile_not, ← List.filter_reverse, List.reverse_reverse]

theorem stripWhiteSpace_trim (s : JSString) : stripWhiteSpace (trim s) = stripWhiteSpace s := by
  unfold stripWhiteSpace trim
  rw [filter_rdropWhile_not, filter_dropWhile_not]

theorem stripWhiteSpace_append (s t : JSString) :
    stripWhiteSpace (s ++ t) = stripWhiteSpace s ++ stripWhiteSpace t := by
  simp [stripWhiteSpace]

theorem stripWhiteSpace_replaceRunsAux (p : Nat → Bool) (hp : ∀ c, p c = true → isWhiteSpace c = true)
    (s : JSString) (inRun : Bool) :
    stripWhiteSpace (replaceRunsAux p inRun s) = stripWhiteSpace s := by
  induction s generalizing inRun with
  | nil => rfl
  | cons c cs ih =>
    by_cases hc : p c = true
    · have hw := hp c hc
      cases inRun
      · have h32 : isWhiteSpace 32 = true := by decide
        simp only [replaceRunsAux, hc, if_true]
        simp [stripWhiteSpace, List.filter_cons, hw, h32]
        simpa [stripWhiteSpace] using ih true
      · simp only [replaceRunsAux, hc, if_true]
        simp [stripWhiteSpace, List.filter_cons, hw]
        simpa [stripWhiteSpace] using ih true
    · have := ih false
      simp only [stripWhiteSpace] at this
      simp [replaceRunsAux, hc, stripWhiteSpace, List.filter_cons, this]

theorem isWhiteSpace_of_isLineBreak (c : Nat) (h : isLineBreak c = true) :
    isWhiteSpace c = true := by
  simp only [isLineBreak, Bool.or_eq_true, beq_iff_eq] at h
  rcases h with h | h <;> subst h <;> decide

theorem stripWhiteSpace_prepareText (s : JSString) :
    stripWhiteSpace (prepareText s) = stripWhiteSpace s := by
  unfold prepareText replaceRuns
  rw [stripWhiteSpace_trim,
    stripWhiteSpace_replaceRunsAux isLineBreak isWhiteSpace_of_isLineBreak,
    stripWhiteSpace_replaceRunsAux isWhiteSpace (fun _ h => h)]

theorem stripWhiteSpace_arrayJoin_space (xs : List JSString) :
    stripWhiteSpace (arrayJoin [32] xs) = (xs.map stripWhiteSpace).flatten := by
  induction xs with
  | nil => rfl
  | cons x rest ih =>
    cases rest with
    | nil => simp [arrayJoin]
    | cons y rest =>
      have h32 : stripWhiteSpace [32] = [] := by decide
      simp only [arrayJoin, stripWhiteSpace_append, h32, List.append_nil, ih, List.map_cons,
        List.flatten_cons]

theorem stripWhiteSpace_flatten (xs : List JSString) :
    stripWhiteSpace xs.flatten = (xs.map stripWhiteSpace).flatten := by
  unfold stripWhiteSpace
  rw [List.filter_flatten]

/-! ## Lemmas on sentence matching -/

theorem isSentence_ne_nil {s : JSString} (h : IsSentence s) : s ≠ [] := by
  obtain ⟨body, terms, rfl, hb, _, _, _⟩ := h
  simp [hb]

theorem matchSentencesFrom_isSentence (text : JSString) :
    ∀ body terms : JSString, (∀ c ∈ body, isTerminator c = false) →
      (∀ c ∈ terms, isTerminator c = true) → (terms ≠ [] → body ≠ []) →
      ∀ s ∈ matchSentencesFrom text body terms, IsSentence s := by
  induction text with
  | nil =>
    intro body terms hb ht hbt s hs
    by_cases hterms : terms = []
    · simp [matchSentencesFrom, hterms] at hs
    · simp only [matchSentencesFrom, hterms, if_false, List.mem_singleton] at hs
      exact ⟨body, terms, hs, hbt hterms, hb, hterms, ht⟩
  | cons c cs ih =>
    intro body terms hb ht hbt s hs
    by_cases hc : isTerminator c = true
    · by_cases hbody : body = []
      · simp only [matchSentencesFrom, hc, hbody, if_true] at hs
        exact ih [] [] (by simp) (by simp) (by simp) s hs
      · simp only [matchSentencesFrom, hc, hbody, if_true, if_false] at hs
        refine ih body (terms ++ [c]) hb ?_ (fun _ => hbody) s hs
        intro d hd
        rcases List.mem_append.1 hd with hd | hd
        · exact ht d hd
        · rw [List.mem_singleton.1 hd]; exact hc
    · have hc' : isTerminator c = false := by simpa using hc
      by_cases hterms : terms = []
      · simp only [matchSentencesFrom, hc', hterms, if_true, if_false,
          Bool.false_eq_true] at hs
        refine ih (body ++ [c]) [] ?_ (by simp) (by simp) s hs
        intro d hd
        rcases List.mem_append.1 hd with hd | hd
        · exact hb d hd
        · rw [List.mem_singleton.1 hd]; exact hc'
      · simp only [matchSentencesFrom, hc', hterms, if_false, List.mem_cons,
          Bool.false_eq_true] at hs
        rcases hs with hs | hs
        · exact ⟨body, terms, hs, hbt hterms, hb, hterms, ht⟩
        · refine ih [c] [] ?_ (by simp) (by simp) s hs
          intro d hd
          rw [List.mem_singleton.1 hd]; exact hc'

theorem matchSentences_isSentence (text : JSString) :
    ∀ s ∈ matchSentences text, IsSentence s :=
  matchSentencesFrom_isSentence text [] [] (by simp) (by simp) (by simp)

theorem matchSentencesFrom_skip_terminators (pre : JSString)
    (hpre : ∀ c ∈ pre, isTerminator c = true) (rest : JSString) :
    matchSentencesFrom (pre ++ rest) [] [] = matchSentencesFrom rest [] [] := by
  induction pre with
  | nil => rfl
  | cons c cs ih =>
    have hc := hpre c (List.mem_cons_self _ _)
    simp only [List.cons_append, matchSentencesFrom, hc, if_true]
    exact ih (fun d hd => hpre d (List.mem_cons_of_mem _ hd))

theorem matchSentencesFrom_read_body (body : JSString)
    (hbody : ∀ c ∈ body, isTerminator c = false) (rest : JSString) :
    ∀ acc : JSString,
      matchSentencesFrom (body ++ rest) acc [] = matchSentencesFrom rest (acc ++ body) [] := by
  induction body with
  | nil => intro acc; simp
  | cons c cs ih =>
    intro acc
    have hc := hbody c (List.mem_cons_self _ _)
    simp only [List.cons_append, matchSentencesFrom, hc, if_true, Bool.false_eq_true, if_false]
    simpa using ih (fun d hd => hbody d (List.mem_cons_of_mem _ hd)) (acc ++ [c])

theorem matchSentencesFrom_read_terminators (terms : JSString)
    (hterms : ∀ c ∈ terms, isTerminator c = true) (rest body : JSString) (hbody : body ≠ []) :
    ∀ acc : JSString,
      matchSentencesFrom (terms ++ rest) body acc = matchSentencesFrom rest body (acc ++ terms) := by
  induction terms with
  | nil => intro acc; simp
  | cons c cs ih =>
    intro acc
    have hc := hterms c (List.mem_cons_self _ _)
    simp only [List.cons_append, matchSentencesFrom, hc, if_true, hbody, if_false]
    simpa using ih (fun d hd => hterms d (List.mem_cons_of_mem _ hd)) (acc ++ [c])

/-- The leftmost, greedy reading of `/[^.!?]+[.!?]+/g`: after leading
terminators `pre`, a non-empty run `body` of non-terminators and a non-empty
run `terms` of terminators that ends the text or is followed by a
non-terminator, the first match is `body ++ terms` and matching goes on after
it. -/
theorem matchSentences_unfold (pre body terms rest : JSString)
    (hpre : ∀ c ∈ pre, isTerminator c = true)
    (hbody : ∀ c ∈ body, isTerminator c = false) (hbody0 : body ≠ [])
    (hterms : ∀ c ∈ terms, isTerminator c = true) (hterms0 : terms ≠ [])
    (hrest : ∀ c ∈ rest.head?, isTerminator c = false) :
    matchSentences (pre ++ (body ++ (terms ++ rest))) =
      (body ++ terms) :: matchSentences rest := by
  unfold matchSentences
  rw [matchSentencesFrom_skip_terminators pre hpre,
    matchSentencesFrom_read_body body hbody,
    matchSentencesFrom_read_terminators terms hterms _ _ (by simpa using hbody0)]
  cases rest with
  | nil => simp [matchSentencesFrom, hterms0]
  | cons c cs =>
    have hc : isTerminator c = false := hrest c (by simp)
    simp [matchSentencesFrom, hc, hterms0]

/-- A text that, after leading terminators, holds no terminator has no match:
an unterminated tail is dropped. -/
theorem matchSentences_unterminated (pre body : JSString)
    (hpre : ∀ c ∈ pre, isTerminator c = true) (hbody : ∀ c ∈ body, isTerminator c = false) :
    matchSentences (pre ++ body) = [] := by
  unfold matchSentences
  have h := matchSentencesFrom_read_body body hbody [] []
  rw [List.append_nil] at h
  rw [matchSentencesFrom_skip_terminators pre hpre, h]
  simp [matchSentencesFrom]

/-! ## The structure of the chunks -/

theorem flatten_eq_nil_of_ne_nil {g : List JSString} (hg : ∀ s ∈ g, s ≠ [])
    (h : g.flatten = []) : g = [] := by
  cases g with
  | nil => rfl
  | cons s rest =>
    exfalso
    have hs := hg s (List.mem_cons_self _ _)
    simp only [List.flatten_cons, List.append_eq_nil] at h
    exact hs h.1

theorem pushCurrent_group (gs : List (List JSString)) (g : List JSString)
    (hg : ∀ s ∈ g, s ≠ []) :
    pushCurrent (gs.map chunkOfGroup) g.flatten =
      (if g = [] then gs else gs ++ [g]).map chunkOfGroup := by
  by_cases h : g = []
  · subst h; simp [pushCurrent]
  · have : g.flatten ≠ [] := fun hf => h (flatten_eq_nil_of_ne_nil hg hf)
    simp [pushCurrent, this, h, chunkOfGroup]

/-- The loop of `chunkText` cuts the sentences into consecutive groups: from a
state whose chunks are the closed groups `gs` and whose running chunk is the
open group `g`, the result is the list of the chunks of a grouping of
`gs`, `g` and the remaining sentences. -/
theorem chunkSentences_groups (maxLength : Nat) (sentences : List JSString) :
    (∀ s ∈ sentences, s ≠ []) →
    ∀ (gs : List (List JSString)) (g : List JSString),
      (∀ x ∈ gs, x ≠ [] ∧ GroupFits maxLength x) → (∀ s ∈ g, s ≠ []) → GroupFits maxLength g →
      ∃ groups : List (List JSString),
        groups.flatten = gs.flatten ++ g ++ sentences ∧
        (∀ x ∈ groups, x ≠ [] ∧ GroupFits maxLength x) ∧
        chunkSentences maxLength sentences
          { chunks := gs.map chunkOfGroup, currentChunk := g.flatten } =
          groups.map chunkOfGroup := by
  induction sentences with
  | nil =>
    intro _ gs g hgs hg hfit
    refine ⟨if g = [] then gs else gs ++ [g], ?_, ?_, ?_⟩
    · by_cases h : g = [] <;> simp [h]
    · by_cases h : g = []
      · simpa [h] using hgs
      · intro x hx
        simp only [h, if_false, List.mem_append, List.mem_singleton] at hx
        rcases hx with hx | hx
        · exact hgs x hx
        · subst hx; exact ⟨h, hfit⟩
    · simp only [chunkSentences, List.foldl_nil]
      exact pushCurrent_group gs g hg
  | cons s rest ih =>
    intro hne gs g hgs hg hfit
    have hs : s ≠ [] := hne s (List.mem_cons_self _ _)
    have hrest : ∀ t ∈ rest, t ≠ [] := fun t ht => hne t (List.mem_cons_of_mem _ ht)
    have hstep : chunkSentences maxLength (s :: rest)
        { chunks := gs.map chunkOfGroup, currentChunk := g.flatten } =
        chunkSentences maxLength rest
          (chunkStep maxLength { chunks := gs.map chunkOfGroup, currentChunk := g.flatten } s) := rfl
    rw [hstep]
    by_cases hlen : (g.flatten ++ s).length ≤ maxLength
    · have hst : chunkStep maxLength { chunks := gs.map chunkOfGroup, currentChunk := g.flatten } s =
          { chunks := gs.map chunkOfGroup, currentChunk := (g ++ [s]).flatten } := by
        simp only [chunkStep]
        rw [if_pos hlen]
        simp
      rw [hst]
      have hg' : ∀ t ∈ g ++ [s], t ≠ [] := by
        intro t ht
        rcases List.mem_append.1 ht with ht | ht
        · exact hg t ht
        · rw [List.mem_singleton.1 ht]; exact hs
      have hfit' : GroupFits maxLength (g ++ [s]) := Or.inl (by simpa using hlen)
      obtain ⟨groups, h1, h2, h3⟩ := ih hrest gs (g ++ [s]) hgs hg' hfit'
      exact ⟨groups, by simpa using h1, h2, h3⟩
    · have hst : chunkStep maxLength { chunks := gs.map chunkOfGroup, currentChunk := g.flatten } s =
          { chunks := (if g = [] then gs else gs ++ [g]).map chunkOfGroup,
            currentChunk := [s].flatten } := by
        simp only [chunkStep]
        rw [if_neg hlen, pushCurrent_group gs g hg]
        simp
      rw [hst]
      have hgs' : ∀ x ∈ (if g = [] then gs else gs ++ [g]), x ≠ [] ∧ GroupFits maxLength x := by
        by_cases h : g = []
        · simpa [h] using hgs
        · intro x hx
          simp only [h, if_false, List.mem_append, List.mem_singleton] at hx
          rcases hx with hx | hx
          · exact hgs x hx
          · subst hx; exact ⟨h, hfit⟩
      have hfit' : GroupFits maxLength [s] := by
        by_cases hsl : s.length ≤ maxLength
        · exact Or.inl (by simpa using hsl)
        · exact Or.inr ⟨s, rfl, by omega⟩
      obtain ⟨groups, h1, h2, h3⟩ :=
        ih hrest (if g = [] then gs else gs ++ [g]) [s] hgs' (by simpa using hs) hfit'
      refine ⟨groups, ?_, h2, h3⟩
      rw [h1]
      by_cases h : g = [] <;> simp [h]

/-- The chunks of a text are the chunks of a grouping of its matched
sentences into consecutive non-empty groups, each of which fits in `maxLength`
or is a single longer sentence. -/
theorem chunkText_groups (text : JSString) (maxLength : Nat) :
    ∃ groups : List (List JSString),
      groups.flatten = matchSentences text ∧
      (∀ x ∈ groups, x ≠ [] ∧ GroupFits maxLength x) ∧
      chunkText text maxLength = groups.map chunkOfGroup := by
  have hne : ∀ s ∈ matchSentences text, s ≠ [] :=
    fun s hs => isSentence_ne_nil (matchSentences_isSentence text s hs)
  obtain ⟨groups, h1, h2, h3⟩ :=
    chunkSentences_groups maxLength (matchSentences text) hne [] [] (by simp) (by simp)
      (Or.inl (by simp))
  exact ⟨groups, by simpa using h1, h2, by simpa [chunkText] using h3⟩

/-! ## Claims on the segmenter -/

/-- C1, as stated, fails: with `maxLength = 5` the text `A. Bcdefgh.` has the
chunk `Bcdefgh.` of length 8, which is longer than 5 and whose length is the
length of no matched sentence (the sentences are `A.` and ` Bcdefgh.`, of
lengths 2 and 9): the chunk is the sentence trimmed. -/
theorem chunkText_oversized_not_sentence_length :
    ¬ ∀ c ∈ chunkText (ofString "A. Bcdefgh.") 5,
        c.length ≤ 5 ∨
          ∃ s ∈ matchSentences (ofString "A. Bcdefgh."), 5 < s.length ∧ c.length = s.length := by
  decide

/-- C1, amended: every chunk of `chunkText text maxLength` has length at most
`maxLength`, or is the trimmed form of exactly one matched sentence (one or
more non-terminators followed by one or more of `.`, `!`, `?`) that is by
itself longer than `maxLength`; the length of the chunk is then at most the
length of that sentence. -/
theorem chunkText_length_bound (text : JSString) (maxLength : Nat) :
    ∀ c ∈ chunkText text maxLength,
      c.length ≤ maxLength ∨
        ∃ s ∈ matchSentences text,
          IsSentence s ∧ maxLength < s.length ∧ c = trim s ∧ c.length ≤ s.length := by
  intro c hc
  obtain ⟨groups, hflat, hgroups, hchunks⟩ := chunkText_groups text maxLength
  rw [hchunks] at hc
  obtain ⟨g, hg, rfl⟩ := List.mem_map.1 hc
  rcases (hgroups g hg).2 with hfit | ⟨s, rfl, hlong⟩
  · exact Or.inl (le_trans (trim_length_le _) hfit)
  · right
    have hs : s ∈ matchSentences text := by
      rw [← hflat]
      exact List.mem_flatten.2 ⟨[s], hg, List.mem_singleton_self s⟩
    refine ⟨s, hs, matchSentences_isSentence text s hs, hlong, ?_, ?_⟩
    · simp [chunkOfGroup]
    · simpa [chunkOfGroup] using trim_length_le s

/-- C1, amended, at `A. Bcdefgh.` with `maxLength = 5`. -/
theorem chunkText_length_bound_witness :
    ofString "Bcdefgh." ∈ chunkText (ofString "A. Bcdefgh.") 5 ∧
    ((ofString "Bcdefgh.").length ≤ 5 ∨
      ∃ s ∈ matchSentences (ofString "A. Bcdefgh."),
        IsSentence s ∧ 5 < s.length ∧ ofString "Bcdefgh." = trim s ∧
          (ofString "Bcdefgh.").length ≤ s.length) :=
  ⟨by decide, chunkText_length_bound (ofString "A. Bcdefgh.") 5 _ (by decide)⟩

/-- C2, as stated, fails: the chunks of `A.B.` for `maxLength = 2` are `A.`
and `B.`, joined to `A. B.`, which is not `prepareText("A.B.") = "A.B."`; and
the chunks of `Hello. World` are `Hello.` alone, the unterminated tail being
matched by no sentence. -/
theorem chunkText_join_not_prepareText :
    prepareText (arrayJoin (ofString " ") (chunkText (ofString "A.B.") 2)) ≠
      prepareText (ofString "A.B.") ∧
    prepareText (arrayJoin (ofString " ") (chunkText (ofString "Hello. World") 250)) ≠
      prepareText (ofString "Hello. World") := by
  decide

/-- C2, amended: joining the chunks with a single space and collapsing white
space with `prepareText` yields, white space apart, exactly the concatenation
of the matched sentences of the text: no character other than white space of
a matched sentence is lost, added or moved by the segmentation. -/
theorem chunkText_preserves_sentence_characters (text : JSString) (maxLength : Nat) :
    stripWhiteSpace (prepareText (arrayJoin (ofString " ") (chunkText text maxLength))) =
      stripWhiteSpace (matchSentences text).flatten := by
  obtain ⟨groups, hflat, -, hchunks⟩ := chunkText_groups text maxLength
  have hspace : ofString " " = [32] := by decide
  rw [hspace, stripWhiteSpace_prepareText, stripWhiteSpace_arrayJoin_space, hchunks, ← hflat,
    stripWhiteSpace_flatten, List.map_map, List.map_flatten, List.flatten_flatten, List.map_map]
  congr 1
  apply List.map_congr_left
  intro g _
  simp only [Function.comp, chunkOfGroup, stripWhiteSpace_trim, stripWhiteSpace_flatten]

/-- C3: the matched sentences of the text can be cut into consecutive
non-empty groups such that the chunks are, in order, the trimmed
concatenations of the groups (no sentence is dropped, duplicated or
reordered); and the empty text has no chunk. -/
theorem chunkText_groups_sentences_in_order (text : JSString) (maxLength : Nat) :
    (∃ groups : List (List JSString),
      groups.flatten = matchSentences text ∧ (∀ g ∈ groups, g ≠ []) ∧
      chunkText text maxLength = groups.map (fun g => trim g.flatten)) ∧
    chunkText [] maxLength = [] := by
  obtain ⟨groups, hflat, hgroups, hchunks⟩ := chunkText_groups text maxLength
  exact ⟨⟨groups, hflat, fun g hg => (hgroups g hg).1, hchunks⟩, rfl⟩

/-! ## Lemmas on the fallback generator -/

theorem lookupLanguage_isSome {language : JSString} (h : language ∉ objectPrototypeKeys) :
    ∃ lang, lookupLanguage language = some lang := by
  unfold lookupLanguage
  split_ifs
  · exact ⟨Lang.en, rfl⟩
  · exact ⟨Lang.es, rfl⟩
  · exact ⟨Lang.fr, rfl⟩
  · exact ⟨Lang.en, rfl⟩

theorem generateFallbackQuestion_of_lookup (toLowerCase : JSString → JSString)
    (text language : JSString) (pick : Nat) {lang : Lang}
    (h : lookupLanguage language = some lang) :
    generateFallbackQuestion toLowerCase text language pick =
      Except.ok
        { question :=
            (fallbackQuestions (extractKeyTerms toLowerCase (prepareText text)).head? lang).getD
              (pick % (fallbackQuestions
                (extractKeyTerms toLowerCase (prepareText text)).head? lang).length) [],
          options := generateOptions (trim ((split text (ofString ".")).headD []))
            (extractKeyTerms toLowerCase (prepareText text)),
          answer := (generateOptions (trim ((split text (ofString ".")).headD []))
            (extractKeyTerms toLowerCase (prepareText text))).head? } := by
  simp only [generateFallbackQuestion, h]

theorem generateFallbackQuestion_ok_lookup {toLowerCase : JSString → JSString}
    {text language : JSString} {pick : Nat} {c : FallbackQuestion}
    (h : generateFallbackQuestion toLowerCase text language pick = Except.ok c) :
    ∃ lang, lookupLanguage language = some lang := by
  cases hl : lookupLanguage language with
  | none => simp [generateFallbackQuestion, hl] at h
  | some lang => exact ⟨lang, rfl⟩

theorem generateOptions_head (mainTopic : JSString) (terms : List JSString) :
    (generateOptions mainTopic terms).head? = some mainTopic := by
  unfold generateOptions
  split <;> rfl

theorem generateOptions_length (mainTopic : JSString) (terms : List JSString) :
    (generateOptions mainTopic terms).length = 4 := by
  unfold generateOptions
  split <;> rfl

theorem splitAux_dot_headD (s cur : JSString) :
    (splitAux [46] 0 cur s).headD [] = cur ++ s.takeWhile (fun c => c != 46) := by
  induction s generalizing cur with
  | nil => simp [splitAux]
  | cons c cs ih =>
    by_cases hc : c = 46
    · subst hc
      simp [splitAux, List.isPrefixOf]
    · have hc' : (46 == c) = false := by
        simp only [beq_eq_false_iff_ne, ne_eq]
        exact fun h => hc h.symm
      have hc'' : (c != 46) = true := by simpa using hc
      simp only [splitAux, List.isPrefixOf, hc', Bool.false_and, Bool.false_eq_true,
        if_false, List.takeWhile_cons, hc'', if_true]
      rw [ih]
      simp

theorem split_dot_headD (s : JSString) :
    (split s (ofString ".")).headD [] = s.takeWhile (fun c => c != 46) := by
  have hdot : ofString "." = [46] := by decide
  rw [hdot]
  simpa [split] using splitAux_dot_headD s []

theorem takeWhile_ne_of_not_mem (s : JSString) (h : 46 ∉ s) :
    s.takeWhile (fun c => c != 46) = s := by
  induction s with
  | nil => rfl
  | cons c cs ih =>
    have hc : c ≠ 46 := fun e => h (by simp [e])
    have hcs : 46 ∉ cs := fun e => h (List.mem_cons_of_mem _ e)
    simp [List.takeWhile_cons, hc, ih hcs]

/-! ## Claims on the fallback generator -/

/-- C4, at the failing input: for the chunk
`The relationship between relationship and between.` the fallback candidate
has 4 options, but the second one, the distractor built from the first two key
terms, is the first one (the answer), so the options are not pairwise
distinct.  The chunk is the one `chunkText` returns for that sentence followed
by the space the extraction appends. -/
theorem generateFallbackQuestion_options_collide :
    chunkText (ofString "The relationship between relationship and between. ") 250 =
      [ofString "The relationship between relationship and between."] ∧
    ∃ c, generateFallbackQuestion asciiLower
        (ofString "The relationship between relationship and between.") (ofString "en") 0 =
        Except.ok c ∧
      c.options.length = 4 ∧
      c.options.get? 0 = some (ofString "The relationship between relationship and between") ∧
      c.options.get? 1 = some (ofString "The relationship between relationship and between") ∧
      ¬ c.options.Nodup :=
  ⟨by decide, _, rfl, by decide, by decide, by decide, by decide⟩

/-- C5: whatever the chunk, the language code and the random choice, a
candidate returned by `generateFallbackQuestion` has `answer == options[0]`,
so the answer is one of the options, and another random choice returns a
candidate with the same options and the same answer; a candidate is returned
for every language code that is not a member inherited from
`Object.prototype`. -/
theorem generateFallbackQuestion_answer_is_first_option (toLowerCase : JSString → JSString)
    (text language : JSString) (pick : Nat) :
    (∀ c, generateFallbackQuestion toLowerCase text language pick = Except.ok c →
      c.answer = c.options.get? 0 ∧ (∃ a, c.answer = some a ∧ a ∈ c.options) ∧
      ∀ pick2, ∃ c2, generateFallbackQuestion toLowerCase text language pick2 = Except.ok c2 ∧
        c2.options = c.options ∧ c2.answer = c.answer) ∧
    (language ∉ objectPrototypeKeys →
      ∃ c, generateFallbackQuestion toLowerCase text language pick = Except.ok c) := by
  constructor
  · intro c hc
    obtain ⟨lang, hl⟩ := generateFallbackQuestion_ok_lookup hc
    rw [generateFallbackQuestion_of_lookup toLowerCase text language pick hl] at hc
    injection hc with hc
    subst hc
    refine ⟨?_, ⟨_, generateOptions_head _ _, ?_⟩, ?_⟩
    · simp [List.head?_eq_getElem?]
    · exact List.mem_of_mem_head? (generateOptions_head _ _)
    · intro pick2
      exact ⟨_, generateFallbackQuestion_of_lookup toLowerCase text language pick2 hl, rfl, rfl⟩
  · intro h
    obtain ⟨lang, hl⟩ := lookupLanguage_isSome h
    exact ⟨_, generateFallbackQuestion_of_lookup toLowerCase text language pick hl⟩

/-- C6: the answer of a candidate returned by `generateFallbackQuestion` is
the text of the chunk before its first `.` (46), trimmed, which is the whole
trimmed chunk when the chunk has no `.`; a candidate is returned for every
language code that is not inherited from `Object.prototype`.  At
`Cats are mammals. They have fur and whiskers.` with `maxLength = 250` the
chunks are that text alone and the answer of its fallback candidate is
`Cats are mammals`. -/
theorem generateFallbackQuestion_answer_is_main_topic (toLowerCase : JSString → JSString)
    (text language : JSString) (pick : Nat) :
    (∀ c, generateFallbackQuestion toLowerCase text language pick = Except.ok c →
      c.answer = some (trim (text.takeWhile (fun u => u != 46))) ∧
      (46 ∉ text → c.answer = some (trim text))) ∧
    (language ∉ objectPrototypeKeys →
      ∃ c, generateFallbackQuestion toLowerCase text language pick = Except.ok c) ∧
    chunkText (ofString "Cats are mammals. They have fur and whiskers.") 250 =
      [ofString "Cats are mammals. They have fur and whiskers."] ∧
    (∀ c, generateFallbackQuestion toLowerCase
        (ofString "Cats are mammals. They have fur and whiskers.") language pick = Except.ok c →
      c.answer = some (ofString "Cats are mammals")) := by
  have key : ∀ (t : JSString) (c : FallbackQuestion),
      generateFallbackQuestion toLowerCase t language pick = Except.ok c →
      c.answer = some (trim (t.takeWhile (fun u => u != 46))) := by
    intro t c hc
    obtain ⟨lang, hl⟩ := generateFallbackQuestion_ok_lookup hc
    rw [generateFallbackQuestion_of_lookup toLowerCase t language pick hl] at hc
    injection hc with hc
    subst hc
    simp only [generateOptions_head, split_dot_headD]
  refine ⟨fun c hc => ⟨key text c hc, fun hdot => ?_⟩, fun h => ?_, by decide, fun c hc => ?_⟩
  · rw [key text c hc, takeWhile_ne_of_not_mem text hdot]
  · obtain ⟨lang, hl⟩ := lookupLanguage_isSome h
    exact ⟨_, generateFallbackQuestion_of_lookup toLowerCase text language pick hl⟩
  · rw [key _ c hc]
    decide

/-! ## Lemmas on the delimiter -/

theorem DELIM_eq : DELIM = [60, 36, 36, 36, 62] := by decide

theorem ANSWER_eq : ANSWER = [36, 65, 78, 83, 87, 69, 82, 36] := by decide

theorem splitAux_cons_zero (sep cur : JSString) (c : Nat) (cs : JSString) :
    splitAux sep 0 cur (c :: cs) =
      if sep.isPrefixOf (c :: cs) then cur :: splitAux sep (sep.length - 1) [] cs
      else splitAux sep 0 (cur ++ [c]) cs := rfl

theorem includes_cons (c : Nat) (cs pat : JSString) :
    includes (c :: cs) pat = (pat.isPrefixOf (c :: cs) || includes cs pat) := rfl

theorem splitAux_skip (sep : JSString) (x : JSString) :
    ∀ (cur rest : JSString), splitAux sep x.length cur (x ++ rest) = splitAux sep 0 cur rest := by
  induction x with
  | nil => intro cur rest; rfl
  | cons c cs ih =>
    intro cur rest
    simp only [List.length_cons, List.cons_append, splitAux]
    exact ih cur rest

theorem isPrefixOf_DELIM_before (c : Nat) (cs rest : JSString)
    (h : DELIM.isPrefixOf (c :: cs) = false) :
    DELIM.isPrefixOf (c :: cs ++ (DELIM ++ rest)) = false := by
  rw [DELIM_eq] at h ⊢
  rcases cs with _ | ⟨d, _ | ⟨e, _ | ⟨f, _ | ⟨g, tail⟩⟩⟩⟩ <;>
    simp_all [List.isPrefixOf]

theorem splitAux_segment (s : JSString) (h : includes s DELIM = false) :
    ∀ (cur rest : JSString),
      splitAux DELIM 0 cur (s ++ (DELIM ++ rest)) = (cur ++ s) :: splitAux DELIM 0 [] rest := by
  induction s with
  | nil =>
    intro cur rest
    have h1 : DELIM.isPrefixOf (DELIM ++ rest) = true := by
      rw [List.isPrefixOf_iff_prefix]; exact List.prefix_append _ _
    have h2 := splitAux_skip DELIM [36, 36, 36, 62] [] rest
    have hd : DELIM ++ rest = 60 :: ([36, 36, 36, 62] ++ rest) := by rw [DELIM_eq]; rfl
    have hl : DELIM.length - 1 = [36, 36, 36, 62].length := by decide
    rw [hd] at h1
    rw [List.nil_append, hd, splitAux_cons_zero, if_pos h1, hl, h2, List.append_nil]
  | cons c cs ih =>
    intro cur rest
    rw [includes_cons, Bool.or_eq_false_iff] at h
    have h1 := isPrefixOf_DELIM_before c cs rest h.1
    rw [List.cons_append] at h1 ⊢
    rw [splitAux_cons_zero, h1, if_neg Bool.false_ne_true, ih h.2]
    simp

theorem splitAux_last (s : JSString) (h : includes s DELIM = false) :
    ∀ cur : JSString, splitAux DELIM 0 cur s = [cur ++ s] := by
  induction s with
  | nil => intro cur; simp [splitAux]
  | cons c cs ih =>
    intro cur
    rw [includes_cons, Bool.or_eq_false_iff] at h
    rw [splitAux_cons_zero, h.1, if_neg Bool.false_ne_true, ih h.2]
    simp

theorem includes_DELIM_of_no_lt (x s : JSString) (hx : 60 ∉ x)
    (h : includes s DELIM = false) : includes (x ++ s) DELIM = false := by
  induction x with
  | nil => simpa using h
  | cons c cs ih =>
    have hc : c ≠ 60 := fun e => hx (by simp [e])
    have hcs : 60 ∉ cs := fun e => hx (List.mem_cons_of_mem _ e)
    have hp : DELIM.isPrefixOf (c :: (cs ++ s)) = false := by
      rw [DELIM_eq]
      have : (60 == c) = false := by
        simp only [beq_eq_false_iff_ne, ne_eq]; exact fun e => hc e.symm
      simp [List.isPrefixOf, this]
    rw [List.cons_append, includes_cons, hp, ih hcs]
    rfl

theorem includes_ANSWER_append (a : JSString) (h : includes a DELIM = false) :
    includes (ANSWER ++ a) DELIM = false :=
  includes_DELIM_of_no_lt ANSWER a (by decide) h

theorem includes_self_append (pat y : JSString) : includes (pat ++ y) pat = true := by
  cases hl : pat ++ y with
  | nil =>
    have : pat = [] := (List.append_eq_nil.1 hl).1
    simp [includes, this]
  | cons c cs =>
    have : pat.isPrefixOf (c :: cs) = true := by
      rw [← hl, List.isPrefixOf_iff_prefix]; exact List.prefix_append _ _
    simp [includes, this]

theorem includes_append (x pat y : JSString) : includes (x ++ (pat ++ y)) pat = true := by
  induction x with
  | nil => simpa using includes_self_append pat y
  | cons c cs ih => simp [includes, ih]

theorem replaceFirst_ANSWER_append (a : JSString) : replaceFirst ANSWER [] (ANSWER ++ a) = a := by
  rw [ANSWER_eq]
  simp [replaceFirst, List.isPrefixOf]

theorem split_encodeQuestion (q o1 o2 o3 o4 a : JSString)
    (hq : includes q DELIM = false) (h1 : includes o1 DELIM = false)
    (h2 : includes o2 DELIM = false) (h3 : includes o3 DELIM = false)
    (h4 : includes o4 DELIM = false) (ha : includes a DELIM = false) :
    split (encodeQuestion q o1 o2 o3 o4 a) DELIM = [q, o1, o2, o3, o4, ANSWER ++ a] := by
  simp only [split, encodeQuestion, List.append_assoc]
  rw [splitAux_segment q hq, splitAux_segment o1 h1, splitAux_segment o2 h2,
    splitAux_segment o3 h3, splitAux_segment o4 h4,
    splitAux_last (ANSWER ++ a) (includes_ANSWER_append a ha)]
  simp

theorem split_encodeQuestion_extra (q o1 o2 o3 o4 a extra : JSString)
    (hq : includes q DELIM = false) (h1 : includes o1 DELIM = false)
    (h2 : includes o2 DELIM = false) (h3 : includes o3 DELIM = false)
    (h4 : includes o4 DELIM = false) (ha : includes a DELIM = false) :
    split (encodeQuestion q o1 o2 o3 o4 a ++ DELIM ++ extra) DELIM =
      q :: o1 :: o2 :: o3 :: o4 :: (ANSWER ++ a) :: split extra DELIM := by
  have h := splitAux_segment (ANSWER ++ a) (includes_ANSWER_append a ha) [] extra
  simp only [List.append_assoc] at h
  simp only [split, encodeQuestion, List.append_assoc]
  rw [splitAux_segment q hq, splitAux_segment o1 h1, splitAux_segment o2 h2,
    splitAux_segment o3 h3, splitAux_segment o4 h4, h]
  simp

theorem includes_encodeQuestion (q o1 o2 o3 o4 a tail : JSString) :
    includes (encodeQuestion q o1 o2 o3 o4 a ++ tail) DELIM = true ∧
    includes (encodeQuestion q o1 o2 o3 o4 a ++ tail) ANSWER = true := by
  constructor
  · simp only [encodeQuestion, List.append_assoc]
    exact includes_append q DELIM _
  · have := includes_append (q ++ DELIM ++ o1 ++ DELIM ++ o2 ++ DELIM ++ o3 ++ DELIM ++ o4 ++ DELIM)
      ANSWER (a ++ tail)
    simpa only [encodeQuestion, List.append_assoc] using this

theorem validateFormat_of_wellFormatted {g : JSString} (h : WellFormatted g) :
    validateFormat g = Except.ok g := by
  obtain ⟨h1, h2, h3⟩ := h
  simp [validateFormat, h1, h2, h3]

theorem validateFormat_of_not_wellFormatted {g : JSString} (h : ¬ WellFormatted g) :
    validateFormat g = Except.error JSError.invalidFormat := by
  by_cases h1 : (includes g DELIM && includes g ANSWER) = true
  · by_cases h2 : (split g DELIM).length ≥ 6
    · exfalso
      rw [Bool.and_eq_true] at h1
      exact h ⟨h1.1, h1.2, h2⟩
    · simp only [validateFormat, h1, h2, if_true, if_false]
  · simp only [validateFormat, h1, if_false, Bool.false_eq_true]

theorem wellFormatted_of_validateFormat {g q : JSString} (h : validateFormat g = Except.ok q) :
    WellFormatted g ∧ q = g := by
  by_cases hw : WellFormatted g
  · rw [validateFormat_of_wellFormatted hw] at h
    injection h with h
    exact ⟨hw, h.symm⟩
  · rw [validateFormat_of_not_wellFormatted hw] at h
    cases h

theorem checkResponse_ok {m : ModelOutcome} {q : JSString} (h : checkResponse m = Except.ok q) :
    ∃ t, m = ModelOutcome.generated t ∧ t ≠ [] ∧ q = trim t ∧ WellFormatted q := by
  cases m with
  | rejected => simp [checkResponse] at h
  | noResponse => simp [checkResponse] at h
  | generated t =>
    by_cases ht : t = []
    · simp [checkResponse, ht] at h
    · simp only [checkResponse, ht, if_false] at h
      obtain ⟨hw, hq⟩ := wellFormatted_of_validateFormat h
      exact ⟨t, rfl, ht, hq, hq ▸ hw⟩

theorem processChunk_generated {h : Host} {chunk language q : JSString} {i : Nat}
    (hp : processChunk h chunk language i = Except.ok (Produced.generated q)) :
    ∃ prompt, getPrompt h.toLowerCase chunk language (h.promptPick i) = Except.ok prompt ∧
      checkResponse (h.model i prompt) = Except.ok q := by
  unfold processChunk at hp
  cases hg : getPrompt h.toLowerCase chunk language (h.promptPick i) with
  | error e => simp [hg] at hp
  | ok prompt =>
    refine ⟨prompt, rfl, ?_⟩
    simp only [hg] at hp
    cases hc : checkResponse (h.model i prompt) with
    | ok g =>
      simp only [hc] at hp
      injection hp with hp
      injection hp with hp
      rw [hp]
    | error e =>
      simp only [hc] at hp
      cases hf : generateFallbackQuestion h.toLowerCase chunk language (h.fallbackPick i) with
      | error e2 => simp [hf] at hp
      | ok fb => simp [hf] at hp

/-! ## Claims on the delimiter contract -/

/-- C8: for strings `q`, `o1`, `o2`, `o3`, `o4`, `a` without the delimiter,
the text `q<$$$>o1<$$$>o2<$$$>o3<$$$>o4<$$$>$ANSWER$a` passes the format check
and is decoded into `problem = q`, `items = [o1, o2, o3, o4]`, `answer = a`;
so is the text followed by the delimiter and anything else. -/
theorem delimiter_round_trip (q o1 o2 o3 o4 a extra type language user_id : JSString)
    (hq : includes q DELIM = false) (h1 : includes o1 DELIM = false)
    (h2 : includes o2 DELIM = false) (h3 : includes o3 DELIM = false)
    (h4 : includes o4 DELIM = false) (ha : includes a DELIM = false) :
    validateFormat (encodeQuestion q o1 o2 o3 o4 a) =
      Except.ok (encodeQuestion q o1 o2 o3 o4 a) ∧
    decodeQuestion type language user_id (encodeQuestion q o1 o2 o3 o4 a) =
      some { problem := q, items := [o1, o2, o3, o4], answer := a,
             type := type, language := language, user_id := user_id } ∧
    validateFormat (encodeQuestion q o1 o2 o3 o4 a ++ DELIM ++ extra) =
      Except.ok (encodeQuestion q o1 o2 o3 o4 a ++ DELIM ++ extra) ∧
    decodeQuestion type language user_id (encodeQuestion q o1 o2 o3 o4 a ++ DELIM ++ extra) =
      some { problem := q, items := [o1, o2, o3, o4], answer := a,
             type := type, language := language, user_id := user_id } := by
  have hs := split_encodeQuestion q o1 o2 o3 o4 a hq h1 h2 h3 h4 ha
  have hse := split_encodeQuestion_extra q o1 o2 o3 o4 a extra hq h1 h2 h3 h4 ha
  have hi := includes_encodeQuestion q o1 o2 o3 o4 a []
  have hie := includes_encodeQuestion q o1 o2 o3 o4 a (DELIM ++ extra)
  rw [List.append_nil] at hi
  rw [← List.append_assoc] at hie
  refine ⟨?_, ?_, ?_, ?_⟩
  · exact validateFormat_of_wellFormatted ⟨hi.1, hi.2, by rw [hs]; simp⟩
  · simp only [decodeQuestion, hs]
    simp [replaceFirst_ANSWER_append]
  · exact validateFormat_of_wellFormatted ⟨hie.1, hie.2, by rw [hse]; simp⟩
  · simp only [decodeQuestion, hse]
    simp [replaceFirst_ANSWER_append]

/-- C8 at `What is X?<$$$>A<$$$>B<$$$>C<$$$>D<$$$>$ANSWER$A`, alone and
followed by `<$$$>E`. -/
theorem delimiter_round_trip_witness :
    encodeQuestion (ofString "What is X?") (ofString "A") (ofString "B") (ofString "C")
        (ofString "D") (ofString "A") =
      ofString "What is X?<$$$>A<$$$>B<$$$>C<$$$>D<$$$>$ANSWER$A" ∧
    (validateFormat (encodeQuestion (ofString "What is X?") (ofString "A") (ofString "B")
        (ofString "C") (ofString "D") (ofString "A")) =
      Except.ok (encodeQuestion (ofString "What is X?") (ofString "A") (ofString "B")
        (ofString "C") (ofString "D") (ofString "A")) ∧
    decodeQuestion [] [] [] (encodeQuestion (ofString "What is X?") (ofString "A")
        (ofString "B") (ofString "C") (ofString "D") (ofString "A")) =
      some { problem := ofString "What is X?",
             items := [ofString "A", ofString "B", ofString "C", ofString "D"],
             answer := ofString "A", type := [], language := [], user_id := [] } ∧
    validateFormat (encodeQuestion (ofString "What is X?") (ofString "A") (ofString "B")
        (ofString "C") (ofString "D") (ofString "A") ++ DELIM ++ ofString "E") =
      Except.ok (encodeQuestion (ofString "What is X?") (ofString "A") (ofString "B")
        (ofString "C") (ofString "D") (ofString "A") ++ DELIM ++ ofString "E") ∧
    decodeQuestion [] [] [] (encodeQuestion (ofString "What is X?") (ofString "A")
        (ofString "B") (ofString "C") (ofString "D") (ofString "A") ++ DELIM ++ ofString "E") =
      some { problem := ofString "What is X?",
             items := [ofString "A", ofString "B", ofString "C", ofString "D"],
             answer := ofString "A", type := [], language := [], user_id := [] }) :=
  ⟨by decide,
   delimiter_round_trip (ofString "What is X?") (ofString "A") (ofString "B") (ofString "C")
     (ofString "D") (ofString "A") (ofString "E") [] [] []
     (by decide) (by decide) (by decide) (by decide) (by decide) (by decide)⟩

/-- C9, as stated, fails: the text
`Q<$$$>A<$$$>B<$$$>C<$$$>D<$$$>Answer: $ANSWER$A` passes the format check,
its sixth segment `Answer: $ANSWER$A` does not start with `$ANSWER$`, and the
answer stored is `Answer: A`. -/
theorem validateFormat_accepts_marker_inside_segment :
    validateFormat (ofString "Q<$$$>A<$$$>B<$$$>C<$$$>D<$$$>Answer: $ANSWER$A") =
      Except.ok (ofString "Q<$$$>A<$$$>B<$$$>C<$$$>D<$$$>Answer: $ANSWER$A") ∧
    (split (ofString "Q<$$$>A<$$$>B<$$$>C<$$$>D<$$$>Answer: $ANSWER$A") DELIM).get? 5 =
      some (ofString "Answer: $ANSWER$A") ∧
    ANSWER.isPrefixOf (ofString "Answer: $ANSWER$A") = false ∧
    (decodeQuestion [] [] [] (ofString "Q<$$$>A<$$$>B<$$$>C<$$$>D<$$$>Answer: $ANSWER$A")).map
      (fun d => d.answer) = some (ofString "Answer: A") :=
  ⟨rfl, by decide, by decide, by decide⟩

/-- C9, amended: a generated text that passes the format check has a sixth
segment, and the answer stored for it is that segment with its first
occurrence of `$ANSWER$`, if any, removed; when the segment has the form
`$ANSWER$` followed by the answer text, the stored answer is that text. -/
theorem decodeQuestion_answer_of_accepted (generatedText type language user_id : JSString)
    (h : validateFormat generatedText = Except.ok generatedText) :
    ∃ d segment, decodeQuestion type language user_id generatedText = some d ∧
      (split generatedText DELIM).get? 5 = some segment ∧
      d.answer = replaceFirst ANSWER [] segment ∧
      ∀ a, segment = ANSWER ++ a → d.answer = a := by
  obtain ⟨⟨_, _, hlen⟩, _⟩ := wellFormatted_of_validateFormat h
  have h5 : 5 < (split generatedText DELIM).length := hlen
  have hget : (split generatedText DELIM).getD 5 [] = (split generatedText DELIM).get ⟨5, h5⟩ := by
    simp [List.getElem?_eq_getElem h5]
  refine ⟨{ problem := (split generatedText DELIM).getD 0 [],
            items := ((split generatedText DELIM).drop 1).take 4,
            answer := replaceFirst ANSWER [] ((split generatedText DELIM).getD 5 []),
            type := type, language := language, user_id := user_id },
    (split generatedText DELIM).get ⟨5, h5⟩, ?_, ?_, ?_, ?_⟩
  · simp only [decodeQuestion]
    rw [if_pos hlen]
  · simp [List.get?_eq_get h5]
  · rw [hget]
  · intro a ha
    rw [hget, ha, replaceFirst_ANSWER_append]

/-- C9, amended, at `What is X?<$$$>A<$$$>B<$$$>C<$$$>D<$$$>$ANSWER$A`. -/
theorem decodeQuestion_answer_of_accepted_witness :
    validateFormat (ofString "What is X?<$$$>A<$$$>B<$$$>C<$$$>D<$$$>$ANSWER$A") =
      Except.ok (ofString "What is X?<$$$>A<$$$>B<$$$>C<$$$>D<$$$>$ANSWER$A") ∧
    ∃ d segment,
      decodeQuestion [] [] [] (ofString "What is X?<$$$>A<$$$>B<$$$>C<$$$>D<$$$>$ANSWER$A") =
        some d ∧
      (split (ofString "What is X?<$$$>A<$$$>B<$$$>C<$$$>D<$$$>$ANSWER$A") DELIM).get? 5 =
        some segment ∧
      d.answer = replaceFirst ANSWER [] segment ∧
      ∀ a, segment = ANSWER ++ a → d.answer = a :=
  ⟨rfl, decodeQuestion_answer_of_accepted _ [] [] [] rfl⟩

/-! ## The generation loop -/

/-- One iteration moves the index forward and pushes at most one question. -/
theorem loopBody_progress (h : Host) (chunks : List JSString) (language : JSString)
    (st : LoopState) :
    st.i < (loopBody h chunks language st).i ∧
    (loopBody h chunks language st).questions.length ≤ st.questions.length + 1 := by
  unfold loopBody
  split
  · exact ⟨Nat.lt_succ_self _, by simp⟩
  · exact ⟨Nat.lt_succ_self _, by simp⟩
  · split_ifs
    · exact ⟨by show st.i < st.i + 1 + 1; omega, by simp⟩
    · exact ⟨Nat.lt_succ_self _, by simp⟩

theorem loopBody_invariant (h : Host) (chunks : List JSString) (language : JSString)
    (count : Nat) (st : LoopState) (hinv : LoopInvariant chunks count st)
    (hcond : loopCond chunks count st = true) :
    LoopInvariant chunks count (loopBody h chunks language st) := by
  obtain ⟨hi, hq⟩ := loopBody_progress h chunks language st
  simp only [loopCond, Bool.and_eq_true, decide_eq_true_eq] at hcond
  obtain ⟨_, h2⟩ := hinv
  refine ⟨?_, by omega⟩
  rw [Nat.le_min]
  constructor <;> omega

theorem runLoop_invariant (h : Host) (chunks : List JSString) (language : JSString)
    (count : Nat) (fuel : Nat) :
    ∀ st, LoopInvariant chunks count st →
      LoopInvariant chunks count (runLoop h chunks language count fuel st) := by
  induction fuel with
  | zero => intro st hst; exact hst
  | succ n ih =>
    intro st hst
    by_cases hc : loopCond chunks count st = true
    · simp only [runLoop, hc, if_true]
      exact ih _ (loopBody_invariant h chunks language count st hst hc)
    · simp only [runLoop, hc, if_false]
      exact hst

theorem runLoop_stops (h : Host) (chunks : List JSString) (language : JSString)
    (count : Nat) (fuel : Nat) :
    ∀ st, chunks.length - st.i ≤ fuel →
      loopCond chunks count (runLoop h chunks language count fuel st) = false := by
  induction fuel with
  | zero =>
    intro st hst
    simp only [runLoop, loopCond]
    have : ¬ st.i < chunks.length := by omega
    simp [this]
  | succ n ih =>
    intro st hst
    by_cases hc : loopCond chunks count st = true
    · simp only [runLoop, hc, if_true]
      apply ih
      have := (loopBody_progress h chunks language st).1
      omega
    · simp only [runLoop, hc, if_false]
      simpa using hc

theorem initialState_invariant (chunks : List JSString) (count : Nat) :
    LoopInvariant chunks count initialState := by
  simp [LoopInvariant, initialState]

/-- C10: whatever the chunks, the count asked for and the behaviour of the
model, of the random choices and of the host, the number of questions
accumulated is at most `min(count, chunks.length)` after any number of
iterations, and so at the end of the loop, which is reached within
`chunks.length` iterations. -/
theorem generationLoop_count_bound (h : Host) (chunks : List JSString) (language : JSString)
    (count : Nat) :
    (∀ n, (runLoop h chunks language count n initialState).questions.length ≤
      min count chunks.length) ∧
    (generationLoop h chunks language count).questions.length ≤ min count chunks.length ∧
    loopCond chunks count (generationLoop h chunks language count) = false :=
  ⟨fun n => (runLoop_invariant h chunks language count n initialState
      (initialState_invariant chunks count)).1,
   (runLoop_invariant h chunks language count chunks.length initialState
      (initialState_invariant chunks count)).1,
   runLoop_stops h chunks language count chunks.length initialState (by simp [initialState])⟩

/-! ## The shape of the chunks -/

theorem isWhiteSpace_of_isTerminator {c : Nat} (h : isTerminator c = true) :
    isWhiteSpace c = false := by
  simp only [isTerminator, Bool.or_eq_true, beq_iff_eq] at h
  rcases h with (h | h) | h <;> subst h <;> decide

theorem isSentence_snoc {s : JSString} (h : IsSentence s) :
    ∃ x t, s = x ++ [t] ∧ isTerminator t = true := by
  obtain ⟨body, terms, rfl, _, _, hterms, hall⟩ := h
  rcases List.eq_nil_or_concat terms with h0 | ⟨init, t, rfl⟩
  · exact absurd h0 hterms
  · exact ⟨body ++ init, t, by simp, hall t (by simp)⟩

theorem group_flatten_snoc {g : List JSString} (hg : g ≠ []) (hs : ∀ s ∈ g, IsSentence s) :
    ∃ x t, g.flatten = x ++ [t] ∧ isTerminator t = true := by
  rcases List.eq_nil_or_concat g with h0 | ⟨init, s, rfl⟩
  · exact absurd h0 hg
  · obtain ⟨x, t, rfl, ht⟩ := isSentence_snoc (hs s (by simp))
    exact ⟨init.flatten ++ x, t, by simp, ht⟩

theorem dropWhile_snoc (p : Nat → Bool) (t : Nat) (ht : p t = false) (x : JSString) :
    ∃ y, (x ++ [t]).dropWhile p = y ++ [t] ∧ ∀ a ∈ (y ++ [t]).head?, p a = false := by
  induction x with
  | nil => exact ⟨[], by simp [List.dropWhile_cons, ht], by simp [ht]⟩
  | cons c cs ih =>
    by_cases hc : p c = true
    · obtain ⟨y, h1, h2⟩ := ih
      exact ⟨y, by simp [List.dropWhile_cons, hc, h1], h2⟩
    · have hc2 : p c = false := by simpa using hc
      exact ⟨c :: cs, by simp [List.dropWhile_cons, hc2], by simp [hc2]⟩

theorem trim_snoc (t : Nat) (ht : isWhiteSpace t = false) (x : JSString) :
    ∃ y, trim (x ++ [t]) = y ++ [t] ∧ ∀ a ∈ (y ++ [t]).head?, isWhiteSpace a = false := by
  obtain ⟨y, h1, h2⟩ := dropWhile_snoc isWhiteSpace t ht x
  refine ⟨y, ?_, h2⟩
  unfold trim
  rw [h1, List.rdropWhile_concat_neg]
  simp [ht]

/-- The chunks of a text with the sentences they are made of: a grouping as in
`chunkText_groups` in which every group is made of matched sentences. -/
theorem chunkText_groups_of_sentences (text : JSString) (maxLength : Nat) :
    ∃ groups : List (List JSString),
      groups.flatten = matchSentences text ∧
      (∀ g ∈ groups, g ≠ [] ∧ GroupFits maxLength g ∧ ∀ s ∈ g, s ∈ matchSentences text) ∧
      chunkText text maxLength = groups.map chunkOfGroup := by
  obtain ⟨groups, hflat, hgroups, hchunks⟩ := chunkText_groups text maxLength
  refine ⟨groups, hflat, fun g hg => ⟨(hgroups g hg).1, (hgroups g hg).2, fun s hs => ?_⟩, hchunks⟩
  rw [← hflat]
  exact List.mem_flatten.2 ⟨g, hg, hs⟩

/-- C20: every chunk of `chunkText` is a non-empty string whose first
character is no white space and whose last character is one of `.`, `!`, `?`
(so no white space either). -/
theorem chunkText_chunk_shape (text : JSString) (maxLength : Nat) :
    ∀ c ∈ chunkText text maxLength,
      c ≠ [] ∧ (∀ a ∈ c.head?, isWhiteSpace a = false) ∧
      ∃ t, c.getLast? = some t ∧ isTerminator t = true ∧ isWhiteSpace t = false := by
  intro c hc
  obtain ⟨groups, -, hgroups, hchunks⟩ := chunkText_groups_of_sentences text maxLength
  rw [hchunks] at hc
  obtain ⟨g, hg, rfl⟩ := List.mem_map.1 hc
  obtain ⟨hne, -, hsent⟩ := hgroups g hg
  obtain ⟨x, t, hx, ht⟩ :=
    group_flatten_snoc hne (fun s hs => matchSentences_isSentence text s (hsent s hs))
  obtain ⟨y, hy, hhead⟩ := trim_snoc t (isWhiteSpace_of_isTerminator ht) x
  have hchunk : chunkOfGroup g = y ++ [t] := by rw [chunkOfGroup, hx, hy]
  rw [hchunk]
  exact ⟨by simp, hhead, t, by simp, ht, isWhiteSpace_of_isTerminator ht⟩

/-- C20 at the second chunk of `A. Bcdefgh.` for `maxLength = 5`. -/
theorem chunkText_chunk_shape_witness :
    ofString "Bcdefgh." ∈ chunkText (ofString "A. Bcdefgh.") 5 ∧
    (ofString "Bcdefgh." ≠ [] ∧ (∀ a ∈ (ofString "Bcdefgh.").head?, isWhiteSpace a = false) ∧
      ∃ t, (ofString "Bcdefgh.").getLast? = some t ∧ isTerminator t = true ∧
        isWhiteSpace t = false) :=
  ⟨by decide, chunkText_chunk_shape (ofString "A. Bcdefgh.") 5 _ (by decide)⟩

/-! ## Greedy packing -/

theorem closedBefore_append {maxLength : Nat} {x g : List JSString} (s : JSString)
    (h : ClosedBefore maxLength x g) : ClosedBefore maxLength x (g ++ [s]) := by
  obtain ⟨s0, rest, rfl, hlen⟩ := h
  exact ⟨s0, rest ++ [s], by simp, hlen⟩

theorem chain_closedBefore_append {maxLength : Nat} {gs : List (List JSString)}
    {g : List JSString} (s : JSString)
    (h : List.Chain' (ClosedBefore maxLength) (gs ++ [g])) :
    List.Chain' (ClosedBefore maxLength) (gs ++ [g ++ [s]]) := by
  rw [List.chain'_append] at h ⊢
  refine ⟨h.1, List.chain'_singleton _, fun x hx y hy => ?_⟩
  simp only [List.head?_cons, Option.mem_def, Option.some.injEq] at hy
  subst hy
  exact closedBefore_append s (h.2.2 x hx g (by simp))

theorem chain_closedBefore_close {maxLength : Nat} {gs : List (List JSString)}
    {g : List JSString} (s : JSString)
    (h : List.Chain' (ClosedBefore maxLength) (gs ++ [g]))
    (hlen : maxLength < g.flatten.length + s.length) :
    List.Chain' (ClosedBefore maxLength) ((gs ++ [g]) ++ [[s]]) := by
  rw [List.chain'_append]
  refine ⟨h, List.chain'_singleton _, fun x hx y hy => ?_⟩
  simp only [List.head?_cons, Option.mem_def, Option.some.injEq] at hy
  subst hy
  have hlast : (gs ++ [g]).getLast? = some g := by simp
  rw [hlast, Option.mem_def, Option.some.injEq] at hx
  subst hx
  exact ⟨s, [], rfl, hlen⟩

/-- The loop of `chunkText` with the record of where it closes a chunk: the
groups of `chunkSentences_groups`, each closed group and the next one being
related by `ClosedBefore`. -/
theorem chunkSentences_groups_greedy (maxLength : Nat) (sentences : List JSString) :
    (∀ s ∈ sentences, s ≠ []) →
    ∀ (gs : List (List JSString)) (g : List JSString),
      (∀ x ∈ gs, x ≠ [] ∧ GroupFits maxLength x) → (∀ s ∈ g, s ≠ []) → GroupFits maxLength g →
      (g = [] → gs = []) →
      List.Chain' (ClosedBefore maxLength) (if g = [] then gs else gs ++ [g]) →
      ∃ groups : List (List JSString),
        groups.flatten = gs.flatten ++ g ++ sentences ∧
        (∀ x ∈ groups, x ≠ [] ∧ GroupFits maxLength x) ∧
        List.Chain' (ClosedBefore maxLength) groups ∧
        chunkSentences maxLength sentences
          { chunks := gs.map chunkOfGroup, currentChunk := g.flatten } =
          groups.map chunkOfGroup := by
  induction sentences with
  | nil =>
    intro _ gs g hgs hg hfit _ hchain
    refine ⟨if g = [] then gs else gs ++ [g], ?_, ?_, hchain, ?_⟩
    · by_cases h : g = [] <;> simp [h]
    · by_cases h : g = []
      · simpa [h] using hgs
      · intro x hx
        simp only [h, if_false, List.mem_append, List.mem_singleton] at hx
        rcases hx with hx | hx
        · exact hgs x hx
        · subst hx; exact ⟨h, hfit⟩
    · simp only [chunkSentences, List.foldl_nil]
      exact pushCurrent_group gs g hg
  | cons s rest ih =>
    intro hne gs g hgs hg hfit hemp hchain
    have hs : s ≠ [] := hne s (List.mem_cons_self _ _)
    have hrest : ∀ t ∈ rest, t ≠ [] := fun t ht => hne t (List.mem_cons_of_mem _ ht)
    have hstep : chunkSentences maxLength (s :: rest)
        { chunks := gs.map chunkOfGroup, currentChunk := g.flatten } =
        chunkSentences maxLength rest
          (chunkStep maxLength { chunks := gs.map chunkOfGroup, currentChunk := g.flatten } s) := rfl
    rw [hstep]
    have hsnoc : g ++ [s] ≠ [] := by simp
    by_cases hlen : (g.flatten ++ s).length ≤ maxLength
    · have hst : chunkStep maxLength { chunks := gs.map chunkOfGroup, currentChunk := g.flatten } s =
          { chunks := gs.map chunkOfGroup, currentChunk := (g ++ [s]).flatten } := by
        simp only [chunkStep]
        rw [if_pos hlen]
        simp
      rw [hst]
      have hg2 : ∀ t ∈ g ++ [s], t ≠ [] := by
        intro t ht
        rcases List.mem_append.1 ht with ht | ht
        · exact hg t ht
        · rw [List.mem_singleton.1 ht]; exact hs
      have hfit2 : GroupFits maxLength (g ++ [s]) := Or.inl (by simpa using hlen)
      have hchain2 : List.Chain' (ClosedBefore maxLength)
          (if g ++ [s] = [] then gs else gs ++ [g ++ [s]]) := by
        rw [if_neg hsnoc]
        by_cases h : g = []
        · rw [hemp h]; simp
        · rw [if_neg h] at hchain
          exact chain_closedBefore_append s hchain
      obtain ⟨groups, h1, h2, h3, h4⟩ :=
        ih hrest gs (g ++ [s]) hgs hg2 hfit2 (fun h => absurd h hsnoc) hchain2
      exact ⟨groups, by simpa using h1, h2, h3, h4⟩
    · have hst : chunkStep maxLength { chunks := gs.map chunkOfGroup, currentChunk := g.flatten } s =
          { chunks := (if g = [] then gs else gs ++ [g]).map chunkOfGroup,
            currentChunk := [s].flatten } := by
        simp only [chunkStep]
        rw [if_neg hlen, pushCurrent_group gs g hg]
        simp
      rw [hst]
      have hgs2 : ∀ x ∈ (if g = [] then gs else gs ++ [g]), x ≠ [] ∧ GroupFits maxLength x := by
        by_cases h : g = []
        · simpa [h] using hgs
        · intro x hx
          simp only [h, if_false, List.mem_append, List.mem_singleton] at hx
          rcases hx with hx | hx
          · exact hgs x hx
          · subst hx; exact ⟨h, hfit⟩
      have hfit2 : GroupFits maxLength [s] := by
        by_cases hsl : s.length ≤ maxLength
        · exact Or.inl (by simpa using hsl)
        · exact Or.inr ⟨s, rfl, by omega⟩
      have hone : ([s] : List JSString) ≠ [] := by simp
      have hchain2 : List.Chain' (ClosedBefore maxLength)
          (if ([s] : List JSString) = [] then (if g = [] then gs else gs ++ [g])
            else (if g = [] then gs else gs ++ [g]) ++ [[s]]) := by
        rw [if_neg hone]
        by_cases h : g = []
        · rw [if_pos h, hemp h]; simp
        · rw [if_neg h] at hchain ⊢
          refine chain_closedBefore_close s hchain ?_
          have : (g.flatten ++ s).length = g.flatten.length + s.length := List.length_append _ _
          omega
      obtain ⟨groups, h1, h2, h3, h4⟩ :=
        ih hrest (if g = [] then gs else gs ++ [g]) [s] hgs2 (by simpa using hs) hfit2
          (fun h => absurd h hone) hchain2
      refine ⟨groups, ?_, h2, h3, h4⟩
      rw [h1]
      by_cases h : g = [] <;> simp [h]

/-- C18: greedy packing is maximal.  The chunks are those of a grouping of
the matched sentences in which every group fits in `maxLength` (or is a single
longer sentence) and, wherever a group is closed and the next one started,
the untrimmed text of the closed group plus the first sentence of the next
one exceeds `maxLength`; and one step of the loop appends the sentence to the
running chunk when the combined length is at most `maxLength`, and otherwise
closes the running chunk and starts the next one with that sentence. -/
theorem chunkText_greedy_maximal (text : JSString) (maxLength : Nat) :
    (∃ groups : List (List JSString),
      groups.flatten = matchSentences text ∧
      chunkText text maxLength = groups.map (fun g => trim g.flatten) ∧
      (∀ g ∈ groups, g ≠ [] ∧
        (g.flatten.length ≤ maxLength ∨ ∃ s, g = [s] ∧ maxLength < s.length)) ∧
      List.Chain' (fun g g2 => ∃ s rest, g2 = s :: rest ∧
        maxLength < g.flatten.length + s.length) groups) ∧
    (∀ (st : ChunkState) (sentence : JSString),
      ((st.currentChunk ++ sentence).length ≤ maxLength →
        chunkStep maxLength st sentence =
          { chunks := st.chunks, currentChunk := st.currentChunk ++ sentence }) ∧
      (maxLength < (st.currentChunk ++ sentence).length →
        chunkStep maxLength st sentence =
          { chunks := pushCurrent st.chunks st.currentChunk, currentChunk := sentence })) := by
  constructor
  · have hne : ∀ s ∈ matchSentences text, s ≠ [] :=
      fun s hs => isSentence_ne_nil (matchSentences_isSentence text s hs)
    obtain ⟨groups, h1, h2, h3, h4⟩ :=
      chunkSentences_groups_greedy maxLength (matchSentences text) hne [] [] (by simp) (by simp)
        (Or.inl (by simp)) (fun _ => rfl) (by simp)
    exact ⟨groups, by simpa using h1, by simpa [chunkText] using h4, h2, h3⟩
  · intro st sentence
    constructor
    · intro h
      simp only [chunkStep]
      rw [if_pos h]
    · intro h
      simp only [chunkStep]
      rw [if_neg (by omega)]

/-! ## White space in the chunks -/

theorem replaceRunsAux_isWhiteSpace_singleSpaced (s : JSString) :
    ∀ inRun : Bool,
      SingleSpaced (replaceRunsAux isWhiteSpace inRun s) ∧
      (inRun = true → ∀ a ∈ (replaceRunsAux isWhiteSpace inRun s).head?, isWhiteSpace a = false) := by
  induction s with
  | nil => intro inRun; exact ⟨⟨by simp [replaceRunsAux], by simp [replaceRunsAux]⟩,
      by simp [replaceRunsAux]⟩
  | cons c cs ih =>
    intro inRun
    by_cases hc : isWhiteSpace c = true
    · cases inRun
      · have hrw : replaceRunsAux isWhiteSpace false (c :: cs) =
            32 :: replaceRunsAux isWhiteSpace true cs := by
          simp [replaceRunsAux, hc]
        rw [hrw]
        obtain ⟨⟨hmem, hchain⟩, hhead⟩ := ih true
        refine ⟨⟨?_, ?_⟩, by simp⟩
        · intro d hd hw
          rcases List.mem_cons.1 hd with hd | hd
          · exact hd
          · exact hmem d hd hw
        · rw [List.chain'_cons']
          refine ⟨fun y hy hxy => ?_, hchain⟩
          have := hhead rfl y hy
          rw [this] at hxy
          exact Bool.false_ne_true hxy.2
      · have hrw : replaceRunsAux isWhiteSpace true (c :: cs) =
            replaceRunsAux isWhiteSpace true cs := by
          simp [replaceRunsAux, hc]
        rw [hrw]
        exact ih true
    · have hc2 : isWhiteSpace c = false := by simpa using hc
      have hrw : replaceRunsAux isWhiteSpace inRun (c :: cs) =
          c :: replaceRunsAux isWhiteSpace false cs := by
        simp [replaceRunsAux, hc2]
      rw [hrw]
      obtain ⟨⟨hmem, hchain⟩, -⟩ := ih false
      refine ⟨⟨?_, ?_⟩, fun _ a ha => ?_⟩
      · intro d hd hw
        rcases List.mem_cons.1 hd with hd | hd
        · rw [hd, hc2] at hw
          exact absurd hw Bool.false_ne_true
        · exact hmem d hd hw
      · rw [List.chain'_cons']
        refine ⟨fun y _ hxy => ?_, hchain⟩
        rw [hc2] at hxy
        exact Bool.false_ne_true hxy.1
      · simp only [List.head?_cons, Option.mem_def, Option.some.injEq] at ha
        rw [← ha]; exact hc2

theorem replaceRunsAux_of_none (p : Nat → Bool) (s : JSString) (h : ∀ c ∈ s, p c = false) :
    ∀ inRun : Bool, replaceRunsAux p inRun s = s := by
  induction s with
  | nil => intro inRun; rfl
  | cons c cs ih =>
    intro inRun
    have hc : p c = false := h c (List.mem_cons_self _ _)
    simp only [replaceRunsAux, hc, Bool.false_eq_true, if_false]
    rw [ih (fun d hd => h d (List.mem_cons_of_mem _ hd))]

theorem singleSpaced_no_lineBreak {s : JSString} (h : SingleSpaced s) :
    ∀ c ∈ s, isLineBreak c = false := by
  intro c hc
  by_contra hl
  have hl2 : isLineBreak c = true := by simpa using hl
  have h32 := h.1 c hc (isWhiteSpace_of_isLineBreak c hl2)
  rw [h32] at hl2
  exact absurd hl2 (by decide)

theorem singleSpaced_of_isInfix {s t : JSString} (hst : s <:+: t) (h : SingleSpaced t) :
    SingleSpaced s :=
  ⟨fun c hc hw => h.1 c (hst.subset hc) hw, ( List.Chain'.infix h.2 hst)⟩

theorem trim_isInfix (s : JSString) : trim s <:+: s :=
  List.IsInfix.trans ( List.rdropWhile_prefix isWhiteSpace _).isInfix
    (List.dropWhile_suffix isWhiteSpace).isInfix

theorem prepareText_singleSpaced (text : JSString) : SingleSpaced (prepareText text) := by
  have h1 : SingleSpaced (replaceRuns isWhiteSpace text) :=
    (replaceRunsAux_isWhiteSpace_singleSpaced text false).1
  have h2 : replaceRuns isLineBreak (replaceRuns isWhiteSpace text) =
      replaceRuns isWhiteSpace text :=
    replaceRunsAux_of_none isLineBreak _ (singleSpaced_no_lineBreak h1) false
  unfold prepareText
  rw [h2]
  exact singleSpaced_of_isInfix (trim_isInfix _) h1

theorem matchSentencesFrom_isInfix (text : JSString) :
    ∀ body terms : JSString, ∀ s ∈ matchSentencesFrom text body terms,
      s <:+: body ++ terms ++ text := by
  induction text with
  | nil =>
    intro body terms s hs
    by_cases hterms : terms = []
    · simp [matchSentencesFrom, hterms] at hs
    · simp only [matchSentencesFrom, hterms, if_false, List.mem_singleton] at hs
      rw [hs, List.append_nil]
  | cons c cs ih =>
    intro body terms s hs
    have hsuffix : cs <:+: body ++ terms ++ c :: cs :=
      List.IsSuffix.isInfix ⟨body ++ terms ++ [c], by simp⟩
    by_cases hc : isTerminator c = true
    · by_cases hbody : body = []
      · simp only [matchSentencesFrom, hc, hbody, if_true] at hs
        have := ih [] [] s hs
        simp only [List.nil_append] at this
        exact this.trans hsuffix
      · simp only [matchSentencesFrom, hc, hbody, if_true, if_false] at hs
        have := ih body (terms ++ [c]) s hs
        simpa using this
    · have hc2 : isTerminator c = false := by simpa using hc
      by_cases hterms : terms = []
      · simp only [matchSentencesFrom, hc2, hterms, if_true, if_false,
          Bool.false_eq_true] at hs
        have := ih (body ++ [c]) [] s hs
        simpa [hterms] using this
      · simp only [matchSentencesFrom, hc2, hterms, if_false, List.mem_cons,
          Bool.false_eq_true] at hs
        rcases hs with hs | hs
        · rw [hs]
          exact (List.prefix_append (body ++ terms) (c :: cs)).isInfix
        · have := ih [c] [] s hs
          have h2 : [c] ++ [] ++ cs <:+: body ++ terms ++ c :: cs :=
            (List.suffix_append (body ++ terms) (c :: cs)).isInfix
          exact this.trans h2

theorem matchSentences_isInfix (text : JSString) : ∀ s ∈ matchSentences text, s <:+: text := by
  intro s hs
  simpa using matchSentencesFrom_isInfix text [] [] s hs

theorem group_flatten_singleSpaced (g : List JSString)
    (h : ∀ s ∈ g, SingleSpaced s ∧ IsSentence s) : SingleSpaced g.flatten := by
  induction g with
  | nil => exact ⟨by simp, by simp⟩
  | cons s rest ih =>
    obtain ⟨hs, hsent⟩ := h s (List.mem_cons_self _ _)
    have hrest := ih (fun t ht => h t (List.mem_cons_of_mem _ ht))
    obtain ⟨x, t, rfl, ht⟩ := isSentence_snoc hsent
    rw [List.flatten_cons]
    refine ⟨?_, ?_⟩
    · intro c hc hw
      rcases List.mem_append.1 hc with hc | hc
      · exact hs.1 c hc hw
      · exact hrest.1 c hc hw
    · rw [List.chain'_append]
      refine ⟨hs.2, hrest.2, fun a ha b _ hab => ?_⟩
      have hlast : (x ++ [t]).getLast? = some t := by simp
      rw [hlast, Option.mem_def, Option.some.injEq] at ha
      rw [← ha, isWhiteSpace_of_isTerminator ht] at hab
      exact Bool.false_ne_true hab.1

/-- C16, as stated, fails: the text `One.  Two.` + newline + `Three.` has a
single chunk for `maxLength = 250`, the text itself, with two consecutive
spaces and a newline (10) in it, and the chunks of the normalized text are
different. -/
theorem chunkText_keeps_white_space :
    chunkText (ofString "One.  Two.\nThree.") 250 = [ofString "One.  Two.\nThree."] ∧
    ¬ SingleSpaced (ofString "One.  Two.\nThree.") ∧
    10 ∈ ofString "One.  Two.\nThree." ∧
    chunkText (prepareText (ofString "One.  Two.\nThree.")) 250 =
      [ofString "One. Two. Three."] ∧
    chunkText (ofString "One.  Two.\nThree.") 250 ≠
      chunkText (prepareText (ofString "One.  Two.\nThree.")) 250 := by
  refine ⟨by decide, ?_, by decide, by decide, by decide⟩
  intro h
  exact absurd (h.1 10 (by decide) (by decide)) (by decide)

/-- C16, amended: `prepareText` leaves single spaces as the only white space
of a text, and the chunks of a text normalized by `prepareText` contain no
newline, no tab and no two consecutive white-space characters. -/
theorem chunkText_of_prepareText_singleSpaced (text : JSString) (maxLength : Nat) :
    ∀ c ∈ chunkText (prepareText text) maxLength,
      SingleSpaced (prepareText text) ∧ SingleSpaced c ∧ 10 ∉ c ∧ 13 ∉ c ∧ 9 ∉ c := by
  intro c hc
  have hp := prepareText_singleSpaced text
  obtain ⟨groups, -, hgroups, hchunks⟩ :=
    chunkText_groups_of_sentences (prepareText text) maxLength
  rw [hchunks] at hc
  obtain ⟨g, hg, rfl⟩ := List.mem_map.1 hc
  have hflat : SingleSpaced g.flatten :=
    group_flatten_singleSpaced g (fun s hs =>
      ⟨singleSpaced_of_isInfix (matchSentences_isInfix _ s ((hgroups g hg).2.2 s hs)) hp,
       matchSentences_isSentence _ s ((hgroups g hg).2.2 s hs)⟩)
  have hc2 : SingleSpaced (chunkOfGroup g) := singleSpaced_of_isInfix (trim_isInfix _) hflat
  refine ⟨hp, hc2, ?_, ?_, ?_⟩
  · intro h; exact absurd (hc2.1 10 h (by decide)) (by decide)
  · intro h; exact absurd (hc2.1 13 h (by decide)) (by decide)
  · intro h; exact absurd (hc2.1 9 h (by decide)) (by decide)

/-- C16, amended, at the text `One.  Two.` + newline + `Three.`. -/
theorem chunkText_of_prepareText_singleSpaced_witness :
    ofString "One. Two. Three." ∈ chunkText (prepareText (ofString "One.  Two.\nThree.")) 250 ∧
    (SingleSpaced (prepareText (ofString "One.  Two.\nThree.")) ∧
      SingleSpaced (ofString "One. Two. Three.") ∧ 10 ∉ ofString "One. Two. Three." ∧
      13 ∉ ofString "One. Two. Three." ∧ 9 ∉ ofString "One. Two. Three.") :=
  ⟨by decide, chunkText_of_prepareText_singleSpaced (ofString "One.  Two.\nThree.") 250 _
    (by decide)⟩

/-! ## Key terms -/

theorem filter_nonEmpty_modifyHead_append (cur : JSString) (c : Nat) (l : List JSString) :
    List.modifyHead (fun x => cur ++ x) (List.modifyHead (List.cons c) l) =
      List.modifyHead (fun x => (cur ++ [c]) ++ x) l := by
  cases l with
  | nil => rfl
  | cons a rest => simp [List.modifyHead]

theorem splitRunsAux_filter (p : Nat → Bool) (s : JSString) :
    ∀ (inRun : Bool) (cur : JSString), (inRun = true → cur = []) →
      (splitRunsAux p inRun cur s).filter (fun w => !w.isEmpty) =
        ((s.splitOnP p).modifyHead (fun x => cur ++ x)).filter (fun w => !w.isEmpty) := by
  induction s with
  | nil =>
    intro inRun cur _
    simp [splitRunsAux, List.splitOnP_nil, List.modifyHead]
  | cons c cs ih =>
    intro inRun cur hcur
    have hnil := ih true [] (fun _ => rfl)
    have hid : List.modifyHead (fun x : JSString => [] ++ x) (List.splitOnP p cs) =
        List.splitOnP p cs := by
      cases List.splitOnP p cs with
      | nil => rfl
      | cons a rest => simp [List.modifyHead]
    rw [hid] at hnil
    by_cases hc : p c = true
    · rw [List.splitOnP_cons, if_pos hc]
      cases inRun
      · have hrw : splitRunsAux p false cur (c :: cs) = cur :: splitRunsAux p true [] cs := by
          simp [splitRunsAux, hc]
        rw [hrw]
        simp only [List.modifyHead, List.append_nil, List.filter_cons, hnil]
      · have hrw : splitRunsAux p true cur (c :: cs) = splitRunsAux p true [] cs := by
          simp [splitRunsAux, hc]
        rw [hrw, hcur rfl, hnil]
        simp [List.modifyHead]
    · have hrw : splitRunsAux p inRun cur (c :: cs) = splitRunsAux p false (cur ++ [c]) cs := by
        simp [splitRunsAux, hc]
      rw [hrw, List.splitOnP_cons, if_neg hc, filter_nonEmpty_modifyHead_append,
        ih false (cur ++ [c]) (fun h => absurd h Bool.false_ne_true)]

theorem splitNonWord_filter (s : JSString) :
    (splitNonWord s).filter (fun w => !w.isEmpty) = wordTokens s := by
  have h := splitRunsAux_filter (fun c => !isWordChar c) s false [] (fun h => absurd h Bool.false_ne_true)
  have hid : List.modifyHead (fun x : JSString => [] ++ x)
      (List.splitOnP (fun c => !isWordChar c) s) = List.splitOnP (fun c => !isWordChar c) s := by
    cases List.splitOnP (fun c => !isWordChar c) s with
    | nil => rfl
    | cons a rest => simp [List.modifyHead]
  rw [hid] at h
  exact h

theorem qualifies_nonEmpty (w : JSString) (h : qualifies w = true) : (!w.isEmpty) = true := by
  cases w with
  | nil => simp [qualifies] at h
  | cons c cs => rfl

theorem filter_qualifies_splitNonWord (s : JSString) :
    (splitNonWord s).filter qualifies = (wordTokens s).filter qualifies := by
  rw [← splitNonWord_filter, List.filter_filter]
  apply List.filter_congr
  intro w _
  by_cases hw : qualifies w = true
  · simp [hw, qualifies_nonEmpty w hw]
  · simp [hw]

theorem extractKeyTerms_eq (toLowerCase : JSString → JSString) (text : JSString) :
    extractKeyTerms toLowerCase text =
      ((wordTokens (toLowerCase text)).filter qualifies).take 5 := by
  rw [← filter_qualifies_splitNonWord]
  rfl

theorem splitOnP_all_not (p : Nat → Bool) (s : JSString) :
    ∀ w ∈ s.splitOnP p, ∀ c ∈ w, p c = false := by
  induction s with
  | nil => simp [List.splitOnP_nil]
  | cons c cs ih =>
    intro w hw d hd
    rw [List.splitOnP_cons] at hw
    by_cases hc : p c = true
    · rw [if_pos hc] at hw
      rcases List.mem_cons.1 hw with hw | hw
      · rw [hw] at hd; simp at hd
      · exact ih w hw d hd
    · rw [if_neg hc] at hw
      cases hsp : List.splitOnP p cs with
      | nil => rw [hsp] at hw; simp [List.modifyHead] at hw
      | cons a rest =>
        rw [hsp] at hw ih
        simp only [List.modifyHead, List.mem_cons] at hw
        rcases hw with hw | hw
        · rw [hw] at hd
          rcases List.mem_cons.1 hd with hd | hd
          · rw [hd]; simpa using hc
          · exact ih a (List.mem_cons_self _ _) d hd
        · exact ih w (List.mem_cons_of_mem _ hw) d hd

theorem wordTokens_wordChars (s : JSString) :
    ∀ w ∈ wordTokens s, w ≠ [] ∧ ∀ c ∈ w, isWordChar c = true := by
  intro w hw
  simp only [wordTokens, List.mem_filter] at hw
  refine ⟨?_, fun c hc => ?_⟩
  · intro h; rw [h] at hw; simp at hw
  · have := splitOnP_all_not (fun c => !isWordChar c) s w hw.1 c hc
    simpa using this

theorem splitOnP_map (p : Nat → Bool) (f : Nat → Nat) (hf : ∀ c, p (f c) = p c) (s : JSString) :
    (s.map f).splitOnP p = (s.splitOnP p).map (List.map f) := by
  induction s with
  | nil => simp [List.splitOnP_nil]
  | cons c cs ih =>
    rw [List.map_cons, List.splitOnP_cons, List.splitOnP_cons, hf c, ih]
    by_cases hc : p c = true
    · simp [hc]
    · rw [if_neg hc, if_neg hc]
      cases List.splitOnP p cs with
      | nil => rfl
      | cons a rest => simp [List.modifyHead]

theorem wordTokens_map (f : Nat → Nat) (hf : ∀ c, isWordChar (f c) = isWordChar c)
    (s : JSString) : wordTokens (s.map f) = (wordTokens s).map (List.map f) := by
  unfold wordTokens
  rw [splitOnP_map (fun c => !isWordChar c) f (fun c => by simp [hf c]), List.filter_map]
  congr 1
  apply List.filter_congr
  intro w _
  cases w <;> rfl

theorem isWordChar_asciiLowerUnit (c : Nat) : isWordChar (asciiLowerUnit c) = isWordChar c := by
  unfold asciiLowerUnit
  split_ifs with h
  · have h1 : isWordChar c = true := by
      simp only [isWordChar, Bool.or_eq_true, Bool.and_eq_true, decide_eq_true_eq]
      left; left; left; exact h
    have h2 : isWordChar (c + 32) = true := by
      simp only [isWordChar, Bool.or_eq_true, Bool.and_eq_true, decide_eq_true_eq]
      left; left; right; omega
    rw [h1, h2]
  · rfl

/-- C13, as stated, fails: the text `300` followed by KELVIN SIGN (U+212A, no
word character, lower case `k`) has the single key term `300k`, while its
only token, the maximal run of word characters `300`, has the lower case
`300`, which is too short to qualify: the code lower-cases the text before it
splits it. -/
theorem extractKeyTerms_not_lower_cased_token :
    extractKeyTerms kelvinLower (ofString "300" ++ [8490]) = [ofString "300k"] ∧
    wordTokens (ofString "300" ++ [8490]) = [ofString "300"] ∧
    ofString "300k" ∉ (wordTokens (ofString "300" ++ [8490])).map kelvinLower := by
  decide

/-- C13, amended: `extractKeyTerms(text)` is exactly the first (up to) five
qualifying tokens of the lower-cased text, in the order of the text: at most
5 terms, each a token (a maximal run of word characters) of the lower-cased
text, longer than 3 and not a common word.  For the ASCII lower-case mapping
they are the lower-cased qualifying tokens of the text itself. -/
theorem extractKeyTerms_first_qualifying_tokens (toLowerCase : JSString → JSString)
    (text : JSString) :
    extractKeyTerms toLowerCase text =
      ((wordTokens (toLowerCase text)).filter qualifies).take 5 ∧
    (extractKeyTerms toLowerCase text).length ≤ 5 ∧
    (extractKeyTerms toLowerCase text).Sublist (wordTokens (toLowerCase text)) ∧
    (∀ t ∈ extractKeyTerms toLowerCase text,
      t ∈ wordTokens (toLowerCase text) ∧ (∀ c ∈ t, isWordChar c = true) ∧
      3 < t.length ∧ t ∉ commonWords) ∧
    extractKeyTerms asciiLower text =
      (((wordTokens text).map asciiLower).filter qualifies).take 5 := by
  have heq := extractKeyTerms_eq toLowerCase text
  have hsub : (extractKeyTerms toLowerCase text).Sublist
      ((wordTokens (toLowerCase text)).filter qualifies) := by
    rw [heq]; exact List.take_sublist _ _
  refine ⟨heq, ?_, hsub.trans (List.filter_sublist _), ?_, ?_⟩
  · rw [heq]; exact List.length_take_le _ _
  · intro t ht
    have hmem := List.mem_filter.1 (hsub.subset ht)
    have hq := hmem.2
    simp only [qualifies, Bool.and_eq_true, decide_eq_true_eq, Bool.not_eq_true',
      List.contains_eq_any_beq, List.any_eq_false, beq_iff_eq] at hq
    refine ⟨hmem.1, (wordTokens_wordChars _ t hmem.1).2, hq.1, fun hc => ?_⟩
    exact hq.2 t hc rfl
  · rw [extractKeyTerms_eq]
    unfold asciiLower
    rw [wordTokens_map asciiLowerUnit isWordChar_asciiLowerUnit]

/-- C14, as stated, fails: in `Cats chase mice. Cats sleep.` the term `cats`
is returned twice. -/
theorem extractKeyTerms_repeats_terms :
    extractKeyTerms asciiLower (ofString "Cats chase mice. Cats sleep.") =
      [ofString "cats", ofString "chase", ofString "mice", ofString "cats", ofString "sleep"] ∧
    ¬ (extractKeyTerms asciiLower (ofString "Cats chase mice. Cats sleep.")).Nodup := by
  decide

/-- C14, amended: `extractKeyTerms` removes no repetition.  A term is returned
at most as often as it occurs as a token of the lower-cased text, and exactly
that often when it qualifies and the text has at most five qualifying
tokens. -/
theorem extractKeyTerms_keeps_repetitions (toLowerCase : JSString → JSString)
    (text t : JSString) :
    (extractKeyTerms toLowerCase text).count t ≤ (wordTokens (toLowerCase text)).count t ∧
    (((wordTokens (toLowerCase text)).filter qualifies).length ≤ 5 → qualifies t = true →
      (extractKeyTerms toLowerCase text).count t = (wordTokens (toLowerCase text)).count t) := by
  have heq := extractKeyTerms_eq toLowerCase text
  constructor
  · rw [heq]
    exact ((List.take_sublist _ _).trans (List.filter_sublist _)).count_le t
  · intro hlen hq
    rw [heq, List.take_of_length_le hlen, List.count_filter hq]

/-! ## Language codes -/

theorem lookupLanguage_unknown {language : JSString} (hen : language ≠ ofString "en")
    (hes : language ≠ ofString "es") (hfr : language ≠ ofString "fr")
    (h : language ∉ objectPrototypeKeys) : lookupLanguage language = some Lang.en := by
  simp [lookupLanguage, hen, hes, hfr, h]

theorem lookupLanguage_en : lookupLanguage (ofString "en") = some Lang.en := by decide

theorem questionTypes_get (keyTerms : List JSString) (lang : Lang) (pick : Nat) :
    ∃ selected, (questionTypes keyTerms lang).get?
      (pick % (questionTypes keyTerms lang).length) = some selected := by
  have hpos : 0 < (questionTypes keyTerms lang).length := by
    cases lang <;> simp [questionTypes]
  have hlt := Nat.mod_lt pick hpos
  exact ⟨_, List.get?_eq_get hlt⟩

theorem getPrompt_of_lookup (toLowerCase : JSString → JSString) (text language : JSString)
    (pick : Nat) {lang : Lang} (h : lookupLanguage language = some lang) :
    ∃ selected,
      (questionTypes (extractKeyTerms toLowerCase (prepareText text)) lang).get?
        (pick % (questionTypes (extractKeyTerms toLowerCase (prepareText text)) lang).length) =
        some selected ∧
      getPrompt toLowerCase text language pick =
        Except.ok (basePrompt (prepareText text) selected lang) := by
  obtain ⟨selected, hsel⟩ :=
    questionTypes_get (extractKeyTerms toLowerCase (prepareText text)) lang pick
  refine ⟨selected, hsel, ?_⟩
  simp only [getPrompt, h, hsel]

theorem getPrompt_ok_lookup {toLowerCase : JSString → JSString} {text language prompt : JSString}
    {pick : Nat} (h : getPrompt toLowerCase text language pick = Except.ok prompt) :
    ∃ lang, lookupLanguage language = some lang := by
  cases hl : lookupLanguage language with
  | none => simp [getPrompt, hl] at h
  | some lang => exact ⟨lang, rfl⟩

theorem getPrompt_same_lookup (toLowerCase : JSString → JSString) (text l1 l2 : JSString)
    (pick : Nat) (h : lookupLanguage l1 = lookupLanguage l2) :
    getPrompt toLowerCase text l1 pick = getPrompt toLowerCase text l2 pick := by
  simp only [getPrompt, h]

theorem generateFallbackQuestion_same_lookup (toLowerCase : JSString → JSString)
    (text l1 l2 : JSString) (pick : Nat) (h : lookupLanguage l1 = lookupLanguage l2) :
    generateFallbackQuestion toLowerCase text l1 pick =
      generateFallbackQuestion toLowerCase text l2 pick := by
  simp only [generateFallbackQuestion, h]

/-- C15, at the failing input: for the language code `constructor`, which is
none of `en`, `es`, `fr`, both `getPrompt` and `generateFallbackQuestion`
throw a `TypeError`, while they return for `en`.  For every other code that
is not a name inherited from `Object.prototype` (such as `de`) they return
what they return for `en`, without error. -/
theorem inherited_language_code_throws :
    getPrompt asciiLower (ofString "Cats are mammals.") (ofString "constructor") 0 =
      Except.error JSError.typeError ∧
    generateFallbackQuestion asciiLower (ofString "Cats are mammals.") (ofString "constructor") 0 =
      Except.error JSError.typeError ∧
    (getPrompt asciiLower (ofString "Cats are mammals.") (ofString "en") 0).toBool = true ∧
    (generateFallbackQuestion asciiLower (ofString "Cats are mammals.") (ofString "en") 0).toBool =
      true ∧
    ofString "de" ∉ objectPrototypeKeys ∧
    (∀ (toLowerCase : JSString → JSString) (text language : JSString) (pick : Nat),
      language ≠ ofString "en" → language ≠ ofString "es" → language ≠ ofString "fr" →
      language ∉ objectPrototypeKeys →
      getPrompt toLowerCase text language pick = getPrompt toLowerCase text (ofString "en") pick ∧
      generateFallbackQuestion toLowerCase text language pick =
        generateFallbackQuestion toLowerCase text (ofString "en") pick ∧
      (∃ prompt, getPrompt toLowerCase text language pick = Except.ok prompt) ∧
      (∃ c, generateFallbackQuestion toLowerCase text language pick = Except.ok c)) := by
  refine ⟨rfl, rfl, rfl, rfl, by decide, ?_⟩
  intro toLowerCase text language pick hen hes hfr hkeys
  have hl := lookupLanguage_unknown hen hes hfr hkeys
  have hsame : lookupLanguage language = lookupLanguage (ofString "en") := by
    rw [hl, lookupLanguage_en]
  obtain ⟨selected, _, hp⟩ := getPrompt_of_lookup toLowerCase text language pick hl
  exact ⟨getPrompt_same_lookup toLowerCase text _ _ pick hsame,
    generateFallbackQuestion_same_lookup toLowerCase text _ _ pick hsame,
    ⟨_, hp⟩, ⟨_, generateFallbackQuestion_of_lookup toLowerCase text language pick hl⟩⟩

/-! ## The fallback path of the loop -/

theorem processChunk_fallback (h : Host) (chunks : List JSString) {language prompt : JSString}
    {i : Nat} {e : JSError}
    (hp : getPrompt h.toLowerCase (chunks.getD i []) language (h.promptPick i) = Except.ok prompt)
    (hc : checkResponse (h.model i prompt) = Except.error e) :
    ∃ f, encodedFallback h chunks language i = some f ∧
      processChunk h (chunks.getD i []) language i = Except.ok (Produced.fallback f) := by
  obtain ⟨lang, hl⟩ := getPrompt_ok_lookup hp
  obtain ⟨fb, hf⟩ : ∃ fb, generateFallbackQuestion h.toLowerCase (chunks.getD i []) language
      (h.fallbackPick i) = Except.ok fb :=
    ⟨_, generateFallbackQuestion_of_lookup h.toLowerCase (chunks.getD i []) language
      (h.fallbackPick i) hl⟩
  refine ⟨formatFallback fb, ?_, ?_⟩
  · simp only [encodedFallback, hf]
  · simp only [processChunk, hp, hc, hf]

theorem loopBody_fallback (h : Host) (chunks : List JSString) {language prompt : JSString}
    (st : LoopState) {e : JSError}
    (hp : getPrompt h.toLowerCase (chunks.getD st.i []) language (h.promptPick st.i) =
      Except.ok prompt)
    (hc : checkResponse (h.model st.i prompt) = Except.error e) :
    ∃ f, encodedFallback h chunks language st.i = some f ∧
      loopBody h chunks language st =
        { i := st.i + 1, questions := st.questions ++ [f], retryCount := st.retryCount } := by
  obtain ⟨f, hf, hproc⟩ := processChunk_fallback h chunks hp hc
  exact ⟨f, hf, by simp only [loopBody, hproc]⟩

theorem runLoop_all_fallbacks (h : Host) (chunks : List JSString) (language : JSString)
    (count : Nat) {lang : Lang} (hl : lookupLanguage language = some lang)
    (hfail : ∀ i prompt, ∃ e, checkResponse (h.model i prompt) = Except.error e) (fuel : Nat) :
    ∀ st : LoopState,
      st.questions.map some = (List.range st.i).map (encodedFallback h chunks language) →
      st.i ≤ min count chunks.length → chunks.length - st.i ≤ fuel →
      (runLoop h chunks language count fuel st).questions.map some =
        (List.range (min count chunks.length)).map (encodedFallback h chunks language) := by
  induction fuel with
  | zero =>
    intro st hq hi hfuel
    have : st.i = min count chunks.length := by
      have := Nat.min_le_right count chunks.length
      omega
    simp only [runLoop]
    rw [hq, this]
  | succ n ih =>
    intro st hq hi hfuel
    have hlen : st.questions.length = st.i := by
      have := congrArg List.length hq
      simpa using this
    by_cases hc : loopCond chunks count st = true
    · simp only [runLoop, hc, if_true]
      obtain ⟨selected, _, hp⟩ := getPrompt_of_lookup h.toLowerCase (chunks.getD st.i []) language
        (h.promptPick st.i) hl
      obtain ⟨e, he⟩ := hfail st.i (basePrompt (prepareText (chunks.getD st.i [])) selected lang)
      obtain ⟨f, hf, hbody⟩ := loopBody_fallback h chunks st hp he
      rw [hbody]
      simp only [loopCond, Bool.and_eq_true, decide_eq_true_eq] at hc
      apply ih
      · simp only [List.map_append, List.map_cons, List.map_nil, List.range_succ, hq, hf]
      · show st.i + 1 ≤ min count chunks.length
        rw [Nat.le_min]
        omega
      · show chunks.length - (st.i + 1) ≤ n
        omega
    · simp only [runLoop, hc, if_false, Bool.false_eq_true]
      have hmin : st.i = min count chunks.length := by
        simp only [loopCond, Bool.and_eq_true, decide_eq_true_eq, not_and, not_lt] at hc
        rw [Nat.le_min] at hi
        by_cases h1 : st.i < chunks.length
        · have := hc h1
          rw [Nat.min_def]
          split_ifs <;> omega
        · rw [Nat.min_def]
          split_ifs <;> omega
      rw [hq, hmin]

/-- C11, at the failing input: with a model that rejects every call, one
chunk, one question asked for and the language code `constructor`, the loop
accumulates no candidate, because `getPrompt` throws before the model is
called, while for the code `en` it accumulates the fallback of the chunk.
Whenever the model is called and its call or the validation of its text
fails, the iteration appends exactly the encoded fallback of the chunk and
moves to the next chunk; and for a language code that is not inherited from
`Object.prototype`, a model that fails at every call gives exactly
`min(count, chunks.length)` candidates, the fallbacks of the first chunks in
order. -/
theorem fallback_on_model_failure :
    (generationLoop failingHost [ofString "Cats are mammals."] (ofString "constructor") 1).questions
      = [] ∧
    (generationLoop failingHost [ofString "Cats are mammals."] (ofString "en") 1).questions.map some
      = [encodedFallback failingHost [ofString "Cats are mammals."] (ofString "en") 0] ∧
    (∀ (h : Host) (chunks : List JSString) (language prompt : JSString) (st : LoopState)
      (e : JSError),
      getPrompt h.toLowerCase (chunks.getD st.i []) language (h.promptPick st.i) =
        Except.ok prompt →
      checkResponse (h.model st.i prompt) = Except.error e →
      ∃ f, encodedFallback h chunks language st.i = some f ∧
        loopBody h chunks language st =
          { i := st.i + 1, questions := st.questions ++ [f], retryCount := st.retryCount }) ∧
    (∀ (h : Host) (chunks : List JSString) (language : JSString) (count : Nat),
      language ∉ objectPrototypeKeys →
      (∀ i prompt, ∃ e, checkResponse (h.model i prompt) = Except.error e) →
      (generationLoop h chunks language count).questions.map some =
        (List.range (min count chunks.length)).map (encodedFallback h chunks language) ∧
      (generationLoop h chunks language count).questions.length = min count chunks.length) := by
  refine ⟨rfl, rfl, fun h chunks language prompt st e hp hc => loopBody_fallback h chunks st hp hc, ?_⟩
  intro h chunks language count hkeys hfail
  obtain ⟨lang, hl⟩ := lookupLanguage_isSome hkeys
  have hq := runLoop_all_fallbacks h chunks language count hl hfail chunks.length initialState
    (by simp [initialState]) (by simp [initialState]) (by simp [initialState])
  refine ⟨hq, ?_⟩
  have := congrArg List.length hq
  simpa [generationLoop] using this

/-! ## Termination of the loop -/

theorem runLoop_of_stopped (h : Host) (chunks : List JSString) (language : JSString)
    (count : Nat) (fuel : Nat) (st : LoopState) (hc : loopCond chunks count st = false) :
    runLoop h chunks language count fuel st = st := by
  cases fuel with
  | zero => rfl
  | succ n => simp only [runLoop, hc, Bool.false_eq_true, if_false]

theorem runLoop_add (h : Host) (chunks : List JSString) (language : JSString) (count : Nat)
    (m n : Nat) :
    ∀ st, runLoop h chunks language count (n + m) st =
      runLoop h chunks language count m (runLoop h chunks language count n st) := by
  induction n with
  | zero => intro st; simp [runLoop]
  | succ k ih =>
    intro st
    have hk : k + 1 + m = (k + m) + 1 := by omega
    rw [hk]
    by_cases hc : loopCond chunks count st = true
    · simp only [runLoop, hc, if_true]
      exact ih _
    · have hc2 : loopCond chunks count st = false := by simpa using hc
      simp only [runLoop, hc2, Bool.false_eq_true, if_false]
      exact (runLoop_of_stopped h chunks language count m st hc2).symm

theorem runLoop_enough_fuel (h : Host) (chunks : List JSString) (language : JSString)
    (count : Nat) (n : Nat) (hn : chunks.length ≤ n) :
    runLoop h chunks language count n initialState = generationLoop h chunks language count := by
  obtain ⟨m, rfl⟩ : ∃ m, n = chunks.length + m := ⟨n - chunks.length, by omega⟩
  rw [runLoop_add]
  exact runLoop_of_stopped h chunks language count m _
    (runLoop_stops h chunks language count chunks.length initialState (by simp [initialState]))

theorem visitedIndices_bounds (h : Host) (chunks : List JSString) (language : JSString)
    (count : Nat) (fuel : Nat) :
    ∀ st : LoopState,
      (∀ j ∈ visitedIndices h chunks language count fuel st, st.i ≤ j ∧ j < chunks.length) ∧
      (visitedIndices h chunks language count fuel st).Pairwise (fun a b => a < b) ∧
      (visitedIndices h chunks language count fuel st).length ≤ chunks.length - st.i := by
  induction fuel with
  | zero => intro st; simp [visitedIndices]
  | succ n ih =>
    intro st
    by_cases hc : loopCond chunks count st = true
    · have hstep := (loopBody_progress h chunks language st).1
      obtain ⟨h1, h2, h3⟩ := ih (loopBody h chunks language st)
      have hc2 := hc
      simp only [loopCond, Bool.and_eq_true, decide_eq_true_eq] at hc2
      simp only [visitedIndices, hc, if_true]
      refine ⟨?_, ?_, ?_⟩
      · intro j hj
        rcases List.mem_cons.1 hj with hj | hj
        · rw [hj]; exact ⟨le_refl _, hc2.1⟩
        · exact ⟨by have := (h1 j hj).1; omega, (h1 j hj).2⟩
      · rw [List.pairwise_cons]
        exact ⟨fun j hj => by have := (h1 j hj).1; omega, h2⟩
      · simp only [List.length_cons]
        omega
    · have hc2 : loopCond chunks count st = false := by simpa using hc
      simp [visitedIndices, hc2]

/-! ## The number of segments of an accumulated string -/

theorem splitAux_length_pos (sep : JSString) (s : JSString) :
    ∀ (skip : Nat) (cur : JSString), 1 ≤ (splitAux sep skip cur s).length := by
  induction s with
  | nil => intro skip cur; simp [splitAux]
  | cons c cs ih =>
    intro skip cur
    cases skip with
    | succ k => simp only [splitAux]; exact ih k cur
    | zero =>
      rw [splitAux_cons_zero]
      split_ifs
      · simp
      · exact ih 0 _

theorem isPrefixOf_DELIM_of_before (c : Nat) (cs rest : JSString)
    (h : DELIM.isPrefixOf (c :: cs ++ (DELIM ++ rest)) = true) :
    DELIM.isPrefixOf (c :: cs) = true := by
  cases hn : DELIM.isPrefixOf (c :: cs) with
  | true => rfl
  | false =>
    rw [isPrefixOf_DELIM_before c cs rest hn] at h
    exact absurd h Bool.false_ne_true

/-- An occurrence of the delimiter always ends a segment, whatever stands
before it: the text before it may hold other occurrences, none of which can
overlap it. -/
theorem splitAux_segments_after (n : Nat) :
    ∀ (x cur y : JSString), x.length ≤ n →
      (splitAux DELIM 0 [] y).length + 1 ≤ (splitAux DELIM 0 cur (x ++ (DELIM ++ y))).length := by
  induction n with
  | zero =>
    intro x cur y hx
    have hx0 : x = [] := List.length_eq_zero.1 (Nat.le_zero.1 hx)
    subst hx0
    have := splitAux_segment [] (by decide) cur y
    rw [this]
    simp
  | succ k ih =>
    intro x cur y hx
    cases x with
    | nil =>
      have := splitAux_segment [] (by decide) cur y
      rw [this]
      simp
    | cons c cs =>
      have hcs : cs.length ≤ k := by simpa using hx
      rw [List.cons_append, splitAux_cons_zero]
      by_cases hp : DELIM.isPrefixOf (c :: (cs ++ (DELIM ++ y))) = true
      · rw [if_pos hp]
        have hp2 : DELIM.isPrefixOf (c :: cs) = true :=
          isPrefixOf_DELIM_of_before c cs y (by simpa using hp)
        rw [List.isPrefixOf_iff_prefix] at hp2
        obtain ⟨x2, hx2⟩ := hp2
        have hd : DELIM = 60 :: [36, 36, 36, 62] := DELIM_eq
        have hcs2 : cs = [36, 36, 36, 62] ++ x2 := by
          rw [hd] at hx2
          simp only [List.cons_append, List.cons.injEq] at hx2
          exact hx2.2.symm
        have hl : DELIM.length - 1 = [36, 36, 36, 62].length := by decide
        have hx2len : x2.length ≤ k := by
          rw [hcs2] at hcs
          simp only [List.length_append, List.length_cons, List.length_nil] at hcs
          omega
        rw [hcs2, List.append_assoc, hl, splitAux_skip, List.length_cons]
        have := ih x2 [] y hx2len
        omega
      · rw [if_neg hp]
        exact ih cs (cur ++ [c]) y hcs

theorem split_segments_after (x y : JSString) :
    (split y DELIM).length + 1 ≤ (split (x ++ (DELIM ++ y)) DELIM).length :=
  splitAux_segments_after x.length x [] y (le_refl _)

theorem split_length_pos (s : JSString) : 1 ≤ (split s DELIM).length :=
  splitAux_length_pos DELIM s 0 []

theorem formatFallback_segments (fb : FallbackQuestion) (h : fb.options.length = 4) :
    6 ≤ (split (formatFallback fb) DELIM).length := by
  obtain ⟨question, options, answer⟩ := fb
  simp only at h
  match options, h with
  | [o0, o1, o2, o3], _ =>
    have e : formatFallback { question := question, options := [o0, o1, o2, o3], answer := answer } =
        question ++ (DELIM ++ (o0 ++ (DELIM ++ (o1 ++ (DELIM ++ (o2 ++ (DELIM ++ (o3 ++
          (DELIM ++ (ANSWER ++ answer.getD (ofString "undefined"))))))))))) := by
      simp [formatFallback, arrayJoin, List.append_assoc]
    rw [e]
    have h1 := split_segments_after question (o0 ++ (DELIM ++ (o1 ++ (DELIM ++ (o2 ++ (DELIM ++
      (o3 ++ (DELIM ++ (ANSWER ++ answer.getD (ofString "undefined"))))))))))
    have h2 := split_segments_after o0 (o1 ++ (DELIM ++ (o2 ++ (DELIM ++
      (o3 ++ (DELIM ++ (ANSWER ++ answer.getD (ofString "undefined"))))))))
    have h3 := split_segments_after o1 (o2 ++ (DELIM ++
      (o3 ++ (DELIM ++ (ANSWER ++ answer.getD (ofString "undefined"))))))
    have h4 := split_segments_after o2
      (o3 ++ (DELIM ++ (ANSWER ++ answer.getD (ofString "undefined"))))
    have h5 := split_segments_after o3 (ANSWER ++ answer.getD (ofString "undefined"))
    have h6 := split_length_pos (ANSWER ++ answer.getD (ofString "undefined"))
    omega

theorem generateFallbackQuestion_options_length {toLowerCase : JSString → JSString}
    {text language : JSString} {pick : Nat} {c : FallbackQuestion}
    (h : generateFallbackQuestion toLowerCase text language pick = Except.ok c) :
    c.options.length = 4 := by
  obtain ⟨lang, hl⟩ := generateFallbackQuestion_ok_lookup h
  rw [generateFallbackQuestion_of_lookup toLowerCase text language pick hl] at h
  injection h with h
  subst h
  exact generateOptions_length _ _

theorem processChunk_segments {h : Host} {chunk language : JSString} {i : Nat} {p : Produced}
    (hp : processChunk h chunk language i = Except.ok p) :
    ∃ text, (p = Produced.generated text ∨ p = Produced.fallback text) ∧
      6 ≤ (split text DELIM).length := by
  cases p with
  | generated text =>
    obtain ⟨prompt, -, hc⟩ := processChunk_generated hp
    obtain ⟨t, -, -, -, hw⟩ := checkResponse_ok hc
    exact ⟨text, Or.inl rfl, hw.2.2⟩
  | fallback text =>
    refine ⟨text, Or.inr rfl, ?_⟩
    unfold processChunk at hp
    cases hg : getPrompt h.toLowerCase chunk language (h.promptPick i) with
    | error e => simp [hg] at hp
    | ok prompt =>
      simp only [hg] at hp
      cases hc : checkResponse (h.model i prompt) with
      | ok g => simp [hc] at hp
      | error e =>
        simp only [hc] at hp
        cases hf : generateFallbackQuestion h.toLowerCase chunk language (h.fallbackPick i) with
        | error e2 => simp [hf] at hp
        | ok fb =>
          simp only [hf] at hp
          injection hp with hp
          injection hp with hp
          rw [← hp]
          exact formatFallback_segments fb (generateFallbackQuestion_options_length hf)

theorem loopBody_questions_segments (h : Host) (chunks : List JSString) (language : JSString)
    (st : LoopState) (hst : ∀ q ∈ st.questions, 6 ≤ (split q DELIM).length) :
    ∀ q ∈ (loopBody h chunks language st).questions, 6 ≤ (split q DELIM).length := by
  unfold loopBody
  cases hp : processChunk h (chunks.getD st.i []) language st.i with
  | error e =>
    simp only
    split_ifs <;> exact hst
  | ok p =>
    obtain ⟨text, hcase, hseg⟩ := processChunk_segments hp
    rcases hcase with rfl | rfl
    · intro q hq
      simp only [List.mem_append, List.mem_singleton] at hq
      rcases hq with hq | hq
      · exact hst q hq
      · rw [hq]; exact hseg
    · intro q hq
      simp only [List.mem_append, List.mem_singleton] at hq
      rcases hq with hq | hq
      · exact hst q hq
      · rw [hq]; exact hseg

theorem runLoop_questions_segments (h : Host) (chunks : List JSString) (language : JSString)
    (count : Nat) (fuel : Nat) :
    ∀ st : LoopState, (∀ q ∈ st.questions, 6 ≤ (split q DELIM).length) →
      ∀ q ∈ (runLoop h chunks language count fuel st).questions, 6 ≤ (split q DELIM).length := by
  induction fuel with
  | zero => intro st hst; exact hst
  | succ n ih =>
    intro st hst
    by_cases hc : loopCond chunks count st = true
    · simp only [runLoop, hc, if_true]
      exact ih _ (loopBody_questions_segments h chunks language st hst)
    · simp only [runLoop, hc, if_false, Bool.false_eq_true]
      exact hst

theorem decodeQuestion_isSome (type language user_id q : JSString)
    (hq : 6 ≤ (split q DELIM).length) :
    ∃ d, decodeQuestion type language user_id q = some d := by
  simp only [decodeQuestion]
  rw [if_pos hq]
  exact ⟨_, rfl⟩

theorem saveQuestions_all (type language user_id : JSString) (questions : List JSString)
    (hq : ∀ q ∈ questions, 6 ≤ (split q DELIM).length)
    (hvalid : ∀ q ∈ questions, ∀ d, decodeQuestion type language user_id q = some d →
      passesValidation d = true) :
    ∃ saved, saveQuestions type language user_id questions = SaveOutcome.responded saved ∧
      saved.map some = questions.map (decodeQuestion type language user_id) := by
  induction questions with
  | nil => exact ⟨[], rfl, rfl⟩
  | cons q rest ih =>
    obtain ⟨saved, hsaved, hmap⟩ := ih (fun r hr => hq r (List.mem_cons_of_mem _ hr))
      (fun r hr => hvalid r (List.mem_cons_of_mem _ hr))
    obtain ⟨d, hd⟩ := decodeQuestion_isSome type language user_id q
      (hq q (List.mem_cons_self _ _))
    have hv := hvalid q (List.mem_cons_self _ _) d hd
    refine ⟨d :: saved, ?_, ?_⟩
    · simp only [saveQuestions, hd, hv, if_true, hsaved]
    · simp only [List.map_cons, hd, hmap]

/-- C19, as stated, fails: a document with an empty required field is rejected
by `save()`.  For the model text `Q<$$$>A<$$$>B<$$$>C<$$$>D<$$$>$ANSWER$`
the loop accumulates that string, which has 6 segments and the empty answer,
and the persistence step stores nothing and reports no count; so it is for
the fallback of the chunk `. Dogs bark loudly.`, whose main topic is empty. -/
theorem save_rejects_empty_answer :
    (generationLoop (answeringHost (ofString "Q<$$$>A<$$$>B<$$$>C<$$$>D<$$$>$ANSWER$"))
        [ofString "Cats are mammals."] (ofString "en") 1).questions =
      [ofString "Q<$$$>A<$$$>B<$$$>C<$$$>D<$$$>$ANSWER$"] ∧
    (split (ofString "Q<$$$>A<$$$>B<$$$>C<$$$>D<$$$>$ANSWER$") DELIM).length = 6 ∧
    saveQuestions (ofString "mcq") (ofString "en") (ofString "u1")
        [ofString "Q<$$$>A<$$$>B<$$$>C<$$$>D<$$$>$ANSWER$"] = SaveOutcome.threw [] ∧
    questionsGenerated (saveQuestions (ofString "mcq") (ofString "en") (ofString "u1")
        [ofString "Q<$$$>A<$$$>B<$$$>C<$$$>D<$$$>$ANSWER$"]) = none ∧
    chunkText (ofString " . Dogs bark loudly.") 250 = [ofString ". Dogs bark loudly."] ∧
    (generationLoop failingHost [ofString ". Dogs bark loudly."] (ofString "en") 1).questions.length
      = 1 ∧
    saveQuestions (ofString "mcq") (ofString "en") (ofString "u1")
        (generationLoop failingHost [ofString ". Dogs bark loudly."] (ofString "en") 1).questions =
      SaveOutcome.threw [] := by
  refine ⟨rfl, by decide, by decide, by decide, by decide, rfl, ?_⟩
  decide

/-- C19, amended: every string accumulated by the loop, the validated text of
the model or the encoded fallback, splits on the delimiter into at least 6
segments, so the persistence step decodes every accumulated string into a
document; and when every document passes the `required` validators of the
schema (no empty problem, answer, type, language or user id), exactly one
document per accumulated string is stored, in order, and the number reported
as `questionsGenerated` is the number of accumulated strings. -/
theorem accumulated_questions_all_saved (h : Host) (chunks : List JSString)
    (language type user_id : JSString) (count : Nat)
    (hvalid : ∀ q ∈ (generationLoop h chunks language count).questions,
      ∀ d, decodeQuestion type language user_id q = some d → passesValidation d = true) :
    (∀ n, ∀ q ∈ (runLoop h chunks language count n initialState).questions,
      6 ≤ (split q DELIM).length) ∧
    (∀ q ∈ (generationLoop h chunks language count).questions,
      6 ≤ (split q DELIM).length ∧ ∃ d, decodeQuestion type language user_id q = some d) ∧
    ∃ saved,
      saveQuestions type language user_id (generationLoop h chunks language count).questions =
        SaveOutcome.responded saved ∧
      saved.map some =
        (generationLoop h chunks language count).questions.map
          (decodeQuestion type language user_id) ∧
      saved.length = (generationLoop h chunks language count).questions.length ∧
      questionsGenerated (saveQuestions type language user_id
          (generationLoop h chunks language count).questions) =
        some (generationLoop h chunks language count).questions.length := by
  have hall : ∀ n, ∀ q ∈ (runLoop h chunks language count n initialState).questions,
      6 ≤ (split q DELIM).length :=
    fun n => runLoop_questions_segments h chunks language count n initialState
      (by simp [initialState])
  obtain ⟨saved, hsaved, hmap⟩ := saveQuestions_all type language user_id
    (generationLoop h chunks language count).questions (hall chunks.length) hvalid
  have hlen : saved.length = (generationLoop h chunks language count).questions.length := by
    have := congrArg List.length hmap
    simpa using this
  refine ⟨hall, fun q hq => ⟨hall chunks.length q hq,
    decodeQuestion_isSome type language user_id q (hall chunks.length q hq)⟩,
    saved, hsaved, hmap, hlen, ?_⟩
  rw [hsaved, questionsGenerated, hlen]

/-! ## Encoding and decoding a fallback candidate -/

theorem includes_DELIM_of_not_mem (x : JSString) (hx : 60 ∉ x) : includes x DELIM = false := by
  have := includes_DELIM_of_no_lt x [] hx (by decide)
  simpa using this

theorem extractKeyTerms_no_lt (toLowerCase : JSString → JSString) (text : JSString) :
    ∀ t ∈ extractKeyTerms toLowerCase text, 60 ∉ t := by
  intro t ht h60
  have hsub : (extractKeyTerms toLowerCase text).Sublist (wordTokens (toLowerCase text)) := by
    rw [extractKeyTerms_eq]
    exact (List.take_sublist _ _).trans (List.filter_sublist _)
  have := (wordTokens_wordChars _ t (hsub.subset ht)).2 60 h60
  exact absurd this (by decide)

theorem orDefault_no_lt (x : Option JSString) (d : JSString) (hx : ∀ t, x = some t → 60 ∉ t)
    (hd : 60 ∉ d) : 60 ∉ orDefault x d := by
  cases x with
  | none => exact hd
  | some t =>
    cases t with
    | nil => exact hd
    | cons c cs => exact hx (c :: cs) rfl

theorem fallbackQuestions_no_lt (term0 : Option JSString) (lang : Lang)
    (hx : ∀ t, term0 = some t → 60 ∉ t) : ∀ q ∈ fallbackQuestions term0 lang, 60 ∉ q := by
  intro q hq
  cases lang <;>
    simp only [fallbackQuestions, List.mem_cons, List.mem_singleton, List.not_mem_nil,
      or_false] at hq <;>
    rcases hq with rfl | rfl | rfl <;>
    simp only [List.mem_append, not_or] <;>
    exact ⟨⟨by decide, orDefault_no_lt term0 _ hx (by decide)⟩, by decide⟩

theorem getD_no_lt (l : List JSString) (n : Nat) (h : ∀ q ∈ l, 60 ∉ q) : 60 ∉ l.getD n [] := by
  by_cases hn : n < l.length
  · rw [List.getD_eq_getElem l [] hn]
    exact h _ (List.getElem_mem _)
  · rw [List.getD_eq_default l [] (by omega)]
    simp

theorem generateOptions_shape (mainTopic : JSString) (terms : List JSString)
    (hm : includes mainTopic DELIM = false) (ht : ∀ t ∈ terms, 60 ∉ t) :
    ∃ o1 o2 o3, generateOptions mainTopic terms = [mainTopic, o1, o2, o3] ∧
      includes o1 DELIM = false ∧ includes o2 DELIM = false ∧ includes o3 DELIM = false := by
  unfold generateOptions
  split
  · rename_i t0 t1 t2 rest
    have h0 : 60 ∉ t0 := ht t0 (by simp)
    have h1 : 60 ∉ t1 := ht t1 (by simp)
    have h2 : 60 ∉ t2 := ht t2 (by simp)
    refine ⟨_, _, _, rfl, ?_, ?_, ?_⟩ <;>
      apply includes_DELIM_of_not_mem <;>
      simp only [List.mem_append, not_or] <;>
      refine ⟨⟨⟨by decide, ?_⟩, by decide⟩, ?_⟩ <;> assumption
  · exact ⟨_, _, _, rfl,
      includes_DELIM_of_no_lt _ _ (by decide) hm,
      includes_DELIM_of_no_lt _ _ (by decide) hm,
      includes_DELIM_of_no_lt _ _ (by decide) hm⟩

theorem decodeQuestion_encodeQuestion (q o1 o2 o3 o4 a type language user_id : JSString)
    (hq : includes q DELIM = false) (h1 : includes o1 DELIM = false)
    (h2 : includes o2 DELIM = false) (h3 : includes o3 DELIM = false)
    (h4 : includes o4 DELIM = false) (ha : includes a DELIM = false) :
    decodeQuestion type language user_id (encodeQuestion q o1 o2 o3 o4 a) =
      some { problem := q, items := [o1, o2, o3, o4], answer := a,
             type := type, language := language, user_id := user_id } := by
  have hs := split_encodeQuestion q o1 o2 o3 o4 a hq h1 h2 h3 h4 ha
  simp only [decodeQuestion, hs]
  simp [replaceFirst_ANSWER_append]

/-- C12, as stated, fails for a chunk that contains the delimiter: for the
chunk `a<$$$>b.` the first option and the answer are `a<$$$>b`, and the
encoded candidate is decoded into the items `a`, `b`, `A different aspect of
a`, `b` and the answer `Historical development of a`. -/
theorem fallback_round_trip_breaks_on_delimiter :
    ∃ c, generateFallbackQuestion asciiLower (ofString "a<$$$>b.") (ofString "en") 0 =
        Except.ok c ∧
      c.answer = some (ofString "a<$$$>b") ∧
      c.options = [ofString "a<$$$>b", ofString "A different aspect of a<$$$>b",
        ofString "Historical development of a<$$$>b", ofString "Future implications of a<$$$>b"] ∧
      (decodeQuestion [] [] [] (formatFallback c)).map (fun d => d.items) =
        some [ofString "a", ofString "b", ofString "A different aspect of a", ofString "b"] ∧
      (decodeQuestion [] [] [] (formatFallback c)).map (fun d => d.answer) =
        some (ofString "Historical development of a") :=
  ⟨_, rfl, by decide, by decide, by decide, by decide⟩

/-- C12, amended: for a candidate `c` returned by `generateFallbackQuestion`
for a chunk whose main topic (the trimmed text before its first `.`) does not
contain the delimiter, the encoded string is decoded into `problem =
c.question`, `items = c.options` (4 elements) and `answer = c.answer`, which
is one of the items. -/
theorem fallback_round_trip (toLowerCase : JSString → JSString)
    (text language type user_id : JSString) (pick : Nat) (c : FallbackQuestion)
    (hc : generateFallbackQuestion toLowerCase text language pick = Except.ok c)
    (hm : includes (trim (text.takeWhile (fun u => u != 46))) DELIM = false) :
    ∃ d, decodeQuestion type language user_id (formatFallback c) = some d ∧
      d.problem = c.question ∧ d.items = c.options ∧ d.items.length = 4 ∧
      c.answer = some d.answer ∧ d.answer ∈ d.items ∧
      d.type = type ∧ d.language = language ∧ d.user_id = user_id := by
  obtain ⟨lang, hl⟩ := generateFallbackQuestion_ok_lookup hc
  rw [generateFallbackQuestion_of_lookup toLowerCase text language pick hl] at hc
  injection hc with hc
  subst hc
  have hterms := extractKeyTerms_no_lt toLowerCase (prepareText text)
  rw [← split_dot_headD] at hm
  obtain ⟨o1, o2, o3, hopts, h1, h2, h3⟩ := generateOptions_shape _ _ hm hterms
  have hquestion : includes ((fallbackQuestions
      (extractKeyTerms toLowerCase (prepareText text)).head? lang).getD
        (pick % (fallbackQuestions
          (extractKeyTerms toLowerCase (prepareText text)).head? lang).length) []) DELIM = false := by
    apply includes_DELIM_of_not_mem
    apply getD_no_lt
    apply fallbackQuestions_no_lt
    intro t ht
    exact hterms t (List.mem_of_mem_head? ht)
  have henc : formatFallback
      { question := (fallbackQuestions
          (extractKeyTerms toLowerCase (prepareText text)).head? lang).getD
            (pick % (fallbackQuestions
              (extractKeyTerms toLowerCase (prepareText text)).head? lang).length) [],
        options := generateOptions (trim ((split text (ofString ".")).headD []))
          (extractKeyTerms toLowerCase (prepareText text)),
        answer := (generateOptions (trim ((split text (ofString ".")).headD []))
          (extractKeyTerms toLowerCase (prepareText text))).head? } =
      encodeQuestion ((fallbackQuestions
          (extractKeyTerms toLowerCase (prepareText text)).head? lang).getD
            (pick % (fallbackQuestions
              (extractKeyTerms toLowerCase (prepareText text)).head? lang).length) [])
        (trim ((split text (ofString ".")).headD [])) o1 o2 o3
        (trim ((split text (ofString ".")).headD [])) := by
    simp only [formatFallback, hopts, arrayJoin, encodeQuestion, List.head?_cons,
      Option.getD_some, List.append_assoc]
  rw [henc, decodeQuestion_encodeQuestion _ _ _ _ _ _ type language user_id hquestion hm h1 h2 h3 hm]
  refine ⟨_, rfl, rfl, ?_, ?_, ?_, ?_, rfl, rfl, rfl⟩
  · simp only [hopts]
  · rfl
  · simp only [hopts, List.head?_cons]
  · simp

/-- C12, amended, at the chunk `Cats are mammals. They have fur and whiskers.`
for the language `en`. -/
theorem fallback_round_trip_witness :
    ∃ c, generateFallbackQuestion asciiLower
        (ofString "Cats are mammals. They have fur and whiskers.") (ofString "en") 0 =
        Except.ok c ∧
      includes (trim ((ofString "Cats are mammals. They have fur and whiskers.").takeWhile
        (fun u => u != 46))) DELIM = false ∧
      ∃ d, decodeQuestion [] (ofString "en") [] (formatFallback c) = some d ∧
        d.problem = c.question ∧ d.items = c.options ∧ d.items.length = 4 ∧
        c.answer = some d.answer ∧ d.answer ∈ d.items ∧
        d.type = [] ∧ d.language = ofString "en" ∧ d.user_id = [] :=
  ⟨_, rfl, by decide,
    fallback_round_trip asciiLower (ofString "Cats are mammals. They have fur and whiskers.")
      (ofString "en") [] [] 0 _ rfl (by decide)⟩

/-- C19, amended, at the text of the spec, returned by the model for the
chunk `Cats are mammals.`. -/
theorem accumulated_questions_all_saved_witness :
    (∀ q ∈ (generationLoop
        (answeringHost (ofString "What is X?<$$$>A<$$$>B<$$$>C<$$$>D<$$$>$ANSWER$A"))
        [ofString "Cats are mammals."] (ofString "en") 1).questions,
      ∀ d, decodeQuestion (ofString "mcq") (ofString "en") (ofString "u1") q = some d →
        passesValidation d = true) ∧
    ∃ saved,
      saveQuestions (ofString "mcq") (ofString "en") (ofString "u1")
          (generationLoop
            (answeringHost (ofString "What is X?<$$$>A<$$$>B<$$$>C<$$$>D<$$$>$ANSWER$A"))
            [ofString "Cats are mammals."] (ofString "en") 1).questions =
        SaveOutcome.responded saved ∧
      saved.map some =
        (generationLoop
          (answeringHost (ofString "What is X?<$$$>A<$$$>B<$$$>C<$$$>D<$$$>$ANSWER$A"))
          [ofString "Cats are mammals."] (ofString "en") 1).questions.map
          (decodeQuestion (ofString "mcq") (ofString "en") (ofString "u1")) ∧
      saved.length = (generationLoop
          (answeringHost (ofString "What is X?<$$$>A<$$$>B<$$$>C<$$$>D<$$$>$ANSWER$A"))
          [ofString "Cats are mammals."] (ofString "en") 1).questions.length ∧
      questionsGenerated (saveQuestions (ofString "mcq") (ofString "en") (ofString "u1")
          (generationLoop
            (answeringHost (ofString "What is X?<$$$>A<$$$>B<$$$>C<$$$>D<$$$>$ANSWER$A"))
            [ofString "Cats are mammals."] (ofString "en") 1).questions) =
        some (generationLoop
          (answeringHost (ofString "What is X?<$$$>A<$$$>B<$$$>C<$$$>D<$$$>$ANSWER$A"))
          [ofString "Cats are mammals."] (ofString "en") 1).questions.length :=
  have hv : ∀ q ∈ (generationLoop
        (answeringHost (ofString "What is X?<$$$>A<$$$>B<$$$>C<$$$>D<$$$>$ANSWER$A"))
        [ofString "Cats are mammals."] (ofString "en") 1).questions,
      ∀ d, decodeQuestion (ofString "mcq") (ofString "en") (ofString "u1") q = some d →
        passesValidation d = true := by
    intro q hq d hd
    have hqs : (generationLoop
        (answeringHost (ofString "What is X?<$$$>A<$$$>B<$$$>C<$$$>D<$$$>$ANSWER$A"))
        [ofString "Cats are mammals."] (ofString "en") 1).questions =
        [ofString "What is X?<$$$>A<$$$>B<$$$>C<$$$>D<$$$>$ANSWER$A"] := rfl
    rw [hqs, List.mem_singleton] at hq
    subst hq
    have hdec : decodeQuestion (ofString "mcq") (ofString "en") (ofString "u1")
        (ofString "What is X?<$$$>A<$$$>B<$$$>C<$$$>D<$$$>$ANSWER$A") =
        some { problem := ofString "What is X?",
               items := [ofString "A", ofString "B", ofString "C", ofString "D"],
               answer := ofString "A", type := ofString "mcq", language := ofString "en",
               user_id := ofString "u1" } := by decide
    rw [hdec] at hd
    injection hd with hd
    subst hd
    decide
  ⟨hv, (accumulated_questions_all_saved _ _ _ _ _ _ hv).2.2⟩

/-! ## Acceptance of a generated text by the loop -/

theorem checkResponse_generated (t : JSString) (ht : t ≠ []) :
    checkResponse (ModelOutcome.generated t) = validateFormat (trim t) := by
  simp only [checkResponse, ht, if_false]

theorem processChunk_accepts (h : Host) (chunks : List JSString) {language prompt t : JSString}
    {i : Nat}
    (hp : getPrompt h.toLowerCase (chunks.getD i []) language (h.promptPick i) = Except.ok prompt)
    (hm : h.model i prompt = ModelOutcome.generated t) (ht : t ≠ [])
    (hw : WellFormatted (trim t)) :
    processChunk h (chunks.getD i []) language i = Except.ok (Produced.generated (trim t)) := by
  have hc : checkResponse (h.model i prompt) = Except.ok (trim t) := by
    rw [hm, checkResponse_generated t ht]
    exact validateFormat_of_wellFormatted hw
  simp only [processChunk, hp, hc]

theorem loopBody_accepts (h : Host) (chunks : List JSString) {language prompt t : JSString}
    (st : LoopState)
    (hp : getPrompt h.toLowerCase (chunks.getD st.i []) language (h.promptPick st.i) =
      Except.ok prompt)
    (hm : h.model st.i prompt = ModelOutcome.generated t) (ht : t ≠ [])
    (hw : WellFormatted (trim t)) :
    loopBody h chunks language st =
      { i := st.i + 1, questions := st.questions ++ [trim t], retryCount := 0 } := by
  simp only [loopBody, processChunk_accepts h chunks hp hm ht hw]

/-- C7: the format check accepts a generated text exactly when the text
contains the delimiter, contains the marker `$ANSWER$` and splits on the
delimiter into at least 6 segments, and otherwise fails with the format
error.  In the loop, when the model returns a non-empty text for the prompt
of the chunk, the trimmed text is appended as a generated question (and
`retryCount` reset) if it satisfies the three conditions; if not, the check
throws the format error, nothing is appended as a generated question and the
encoded fallback of the chunk is appended instead.  A text is appended as a
generated question only in the first case. -/
theorem validateFormat_accepts_iff (generatedText : JSString) :
    (validateFormat generatedText = Except.ok generatedText ↔
      (includes generatedText DELIM = true ∧ includes generatedText ANSWER = true ∧
        6 ≤ (split generatedText DELIM).length)) ∧
    (¬ (includes generatedText DELIM = true ∧ includes generatedText ANSWER = true ∧
        6 ≤ (split generatedText DELIM).length) →
      validateFormat generatedText = Except.error JSError.invalidFormat) ∧
    (∀ (h : Host) (chunk language : JSString) (i : Nat),
      processChunk h chunk language i = Except.ok (Produced.generated generatedText) →
      (includes generatedText DELIM = true ∧ includes generatedText ANSWER = true ∧
        6 ≤ (split generatedText DELIM).length) ∧
      ∃ prompt t, h.model i prompt = ModelOutcome.generated t ∧ t ≠ [] ∧
        generatedText = trim t) ∧
    (∀ (h : Host) (chunks : List JSString) (language prompt t : JSString) (st : LoopState),
      getPrompt h.toLowerCase (chunks.getD st.i []) language (h.promptPick st.i) =
        Except.ok prompt →
      h.model st.i prompt = ModelOutcome.generated t → t ≠ [] → trim t = generatedText →
      ((includes generatedText DELIM = true ∧ includes generatedText ANSWER = true ∧
          6 ≤ (split generatedText DELIM).length) →
        checkResponse (h.model st.i prompt) = Except.ok generatedText ∧
        processChunk h (chunks.getD st.i []) language st.i =
          Except.ok (Produced.generated generatedText) ∧
        loopBody h chunks language st =
          { i := st.i + 1, questions := st.questions ++ [generatedText], retryCount := 0 }) ∧
      (¬ (includes generatedText DELIM = true ∧ includes generatedText ANSWER = true ∧
          6 ≤ (split generatedText DELIM).length) →
        checkResponse (h.model st.i prompt) = Except.error JSError.invalidFormat ∧
        ∃ f, encodedFallback h chunks language st.i = some f ∧
          processChunk h (chunks.getD st.i []) language st.i =
            Except.ok (Produced.fallback f) ∧
          loopBody h chunks language st =
            { i := st.i + 1, questions := st.questions ++ [f],
              retryCount := st.retryCount })) ∧
    (generationLoop
        (answeringHost (ofString "  What is X?<$$$>A<$$$>B<$$$>C<$$$>D<$$$>$ANSWER$A\n"))
        [ofString "Cats are mammals."] (ofString "en") 1).questions =
      [ofString "What is X?<$$$>A<$$$>B<$$$>C<$$$>D<$$$>$ANSWER$A"] ∧
    (generationLoop (answeringHost (ofString "What is X?<$$$>A<$$$>B<$$$>C<$$$>D<$$$>A"))
        [ofString "Cats are mammals."] (ofString "en") 1).questions.map some =
      [encodedFallback (answeringHost (ofString "What is X?<$$$>A<$$$>B<$$$>C<$$$>D<$$$>A"))
        [ofString "Cats are mammals."] (ofString "en") 0] := by
  refine ⟨⟨fun h => (wellFormatted_of_validateFormat h).1, validateFormat_of_wellFormatted⟩,
    validateFormat_of_not_wellFormatted, ?_, ?_, rfl, rfl⟩
  · intro h chunk language i hp
    obtain ⟨prompt, _, hc⟩ := processChunk_generated hp
    obtain ⟨t, hm, ht, hq, hw⟩ := checkResponse_ok hc
    exact ⟨hw, prompt, t, hm, ht, hq⟩
  · intro h chunks language prompt t st hp hm ht htrim
    subst htrim
    constructor
    · intro hw
      refine ⟨?_, processChunk_accepts h chunks hp hm ht hw, loopBody_accepts h chunks st hp hm ht hw⟩
      rw [hm, checkResponse_generated t ht]
      exact validateFormat_of_wellFormatted hw
    · intro hw
      have hc : checkResponse (h.model st.i prompt) = Except.error JSError.invalidFormat := by
        rw [hm, checkResponse_generated t ht]
        exact validateFormat_of_not_wellFormatted hw
      obtain ⟨f, hf, hproc⟩ := processChunk_fallback h chunks hp hc
      obtain ⟨f2, hf2, hbody⟩ := loopBody_fallback h chunks st hp hc
      have hff : f2 = f := by
        rw [hf] at hf2
        exact (Option.some.inj hf2).symm
      subst hff
      exact ⟨hc, f2, hf, hproc, hbody⟩

/-! ## The calls to the model -/

theorem processChunk_withModel (h : Host) (model : Nat → JSString → ModelOutcome)
    (chunk language : JSString) (i : Nat)
    (hsame : ∀ prompt, getPrompt h.toLowerCase chunk language (h.promptPick i) = Except.ok prompt →
      model i prompt = h.model i prompt) :
    processChunk (withModel h model) chunk language i = processChunk h chunk language i := by
  unfold processChunk
  simp only [withModel]
  cases hg : getPrompt h.toLowerCase chunk language (h.promptPick i) with
  | error e => rfl
  | ok prompt => simp only [hsame prompt hg]

theorem loopBody_withModel (h : Host) (model : Nat → JSString → ModelOutcome)
    (chunks : List JSString) (language : JSString) (st : LoopState)
    (hsame : ∀ prompt,
      getPrompt h.toLowerCase (chunks.getD st.i []) language (h.promptPick st.i) =
        Except.ok prompt → model st.i prompt = h.model st.i prompt) :
    loopBody (withModel h model) chunks language st = loopBody h chunks language st := by
  unfold loopBody
  rw [processChunk_withModel h model _ language st.i hsame]

theorem callsModel_of_getPrompt {h : Host} {chunks : List JSString} {language prompt : JSString}
    {i : Nat}
    (hp : getPrompt h.toLowerCase (chunks.getD i []) language (h.promptPick i) = Except.ok prompt) :
    callsModel h chunks language i = true := by
  simp only [callsModel, hp]

theorem runLoop_withModel (h : Host) (model : Nat → JSString → ModelOutcome)
    (chunks : List JSString) (language : JSString) (count : Nat) (fuel : Nat) :
    ∀ st : LoopState,
      (∀ i ∈ modelCallIndices h chunks language count fuel st, ∀ prompt,
        getPrompt h.toLowerCase (chunks.getD i []) language (h.promptPick i) = Except.ok prompt →
        model i prompt = h.model i prompt) →
      runLoop (withModel h model) chunks language count fuel st =
        runLoop h chunks language count fuel st := by
  induction fuel with
  | zero => intro st _; rfl
  | succ n ih =>
    intro st hsame
    by_cases hc : loopCond chunks count st = true
    · have hvis : visitedIndices h chunks language count (n + 1) st =
          st.i :: visitedIndices h chunks language count n (loopBody h chunks language st) := by
        simp only [visitedIndices, hc, if_true]
      have hbody : loopBody (withModel h model) chunks language st =
          loopBody h chunks language st := by
        apply loopBody_withModel
        intro prompt hp
        apply hsame st.i _ prompt hp
        simp only [modelCallIndices, hvis, List.mem_filter, List.mem_cons, true_or, true_and]
        exact callsModel_of_getPrompt hp
      simp only [runLoop, hc, if_true, hbody]
      apply ih
      intro i hi prompt hp
      apply hsame i _ prompt hp
      simp only [modelCallIndices, List.mem_filter] at hi ⊢
      rw [hvis]
      exact ⟨List.mem_cons_of_mem _ hi.1, hi.2⟩
    · simp only [runLoop, hc, if_false, Bool.false_eq_true]

/-- C17: the loop terminates whatever the chunks, the count and the behaviour
of the model and of the processing of a chunk.  Every iteration strictly
increases the chunk index; the loop condition is false after at most
`chunks.length` iterations, and more iterations change nothing; the chunk
indices visited are strictly increasing and at most `chunks.length` in
number.  The model is called at most once for each chunk: an iteration
depends on the model only through its answer to the one prompt built for the
chunk of that iteration, and the whole loop only through its answers at the
indices of `modelCallIndices`, each of which occurs there at most once.  (With
five chunks and a prompt that throws at every chunk, the indices visited are
0, 1, 2 and 4: the third exception in a row moves the index by two.) -/
theorem generationLoop_terminates (h : Host) (chunks : List JSString) (language : JSString)
    (count : Nat) :
    (∀ st : LoopState, st.i < (loopBody h chunks language st).i) ∧
    loopCond chunks count (generationLoop h chunks language count) = false ∧
    (∀ n, chunks.length ≤ n →
      runLoop h chunks language count n initialState = generationLoop h chunks language count) ∧
    (∀ n, (visitedIndices h chunks language count n initialState).Pairwise (fun a b => a < b) ∧
      (visitedIndices h chunks language count n initialState).length ≤ chunks.length ∧
      (modelCallIndices h chunks language count n initialState).length ≤ chunks.length ∧
      ∀ i, (modelCallIndices h chunks language count n initialState).count i ≤ 1) ∧
    (∀ (model : Nat → JSString → ModelOutcome) (st : LoopState),
      (∀ prompt,
        getPrompt h.toLowerCase (chunks.getD st.i []) language (h.promptPick st.i) =
          Except.ok prompt → model st.i prompt = h.model st.i prompt) →
      processChunk (withModel h model) (chunks.getD st.i []) language st.i =
        processChunk h (chunks.getD st.i []) language st.i ∧
      loopBody (withModel h model) chunks language st = loopBody h chunks language st) ∧
    (∀ model : Nat → JSString → ModelOutcome,
      (∀ i ∈ modelCallIndices h chunks language count chunks.length initialState, ∀ prompt,
        getPrompt h.toLowerCase (chunks.getD i []) language (h.promptPick i) = Except.ok prompt →
        model i prompt = h.model i prompt) →
      generationLoop (withModel h model) chunks language count =
        generationLoop h chunks language count) ∧
    visitedIndices failingHost
        [ofString "A.", ofString "B.", ofString "C.", ofString "D.", ofString "E."]
        (ofString "toString") 5 5 initialState = [0, 1, 2, 4] ∧
    modelCallIndices failingHost
        [ofString "A.", ofString "B.", ofString "C.", ofString "D.", ofString "E."]
        (ofString "en") 5 5 initialState = [0, 1, 2, 3, 4] := by
  refine ⟨fun st => (loopBody_progress h chunks language st).1,
    runLoop_stops h chunks language count chunks.length initialState (by simp [initialState]),
    runLoop_enough_fuel h chunks language count, fun n => ?_, ?_, ?_, by decide, by decide⟩
  · obtain ⟨-, hpair, hlen⟩ := visitedIndices_bounds h chunks language count n initialState
    have hlen2 : (visitedIndices h chunks language count n initialState).length ≤
        chunks.length := by
      simpa [initialState] using hlen
    have hnodup : (visitedIndices h chunks language count n initialState).Nodup :=
      hpair.imp (fun hab => Nat.ne_of_lt hab)
    have hsub : (modelCallIndices h chunks language count n initialState).Sublist
        (visitedIndices h chunks language count n initialState) := List.filter_sublist _
    refine ⟨hpair, hlen2, le_trans hsub.length_le hlen2, ?_⟩
    exact List.nodup_iff_count_le_one.1 (hsub.nodup hnodup)
  · intro model st hsame
    exact ⟨processChunk_withModel h model _ language st.i hsame,
      loopBody_withModel h model chunks language st hsame⟩
  · intro model hsame
    exact runLoop_withModel h model chunks language count chunks.length initialState hsame

end QuizApp
